import Mathlib

/-!
Verification of the two text-search engines of src/core/string.c:
the exact-match (KMP) engine and the Lua-style backtracking pattern
matcher.  Byte strings are modelled as lists of naturals (byte values);
reading the NUL terminator that C code may touch one past the end of a
buffer is modelled by `List.getD _ _ 0`.
-/

namespace Janet

/-- Byte strings: lists of byte values. -/
abbrev Bytes := List Nat

/-! ## Exact-match engine (Knuth-Morris-Pratt), from kmp_init / kmp_next -/

/-- The fallback loop of the failure-table construction:
`while (j && pat[j] != pat[i]) j = lookup[j - 1];`.
The extra fuel argument bounds the iterations; with the table built so far
(whose entries satisfy `lookup[k] <= k`), fuel `j` is always enough. -/
def kmpFall (pat lookup : Bytes) (c : Nat) : Nat → Nat → Nat
  | j, 0 => j
  | j, fuel+1 =>
    if j ≠ 0 ∧ pat.getD j 0 ≠ c then kmpFall pat lookup c (lookup.getD (j-1) 0) fuel
    else j

/-- The table-building loop of kmp_init
(`for (i = 1, j = 0; i < patlen; i++) ...`); the next index `i` to fill is
always `lookup.length`, and `j` carries the running automaton state. -/
def kmpTableGo (pat : Bytes) : Nat → Nat → List Nat → List Nat
  | 0, _, lookup => lookup
  | steps+1, j, lookup =>
    let i := lookup.length
    let j1 := kmpFall pat lookup (pat.getD i 0) j j
    let j2 := if pat.getD j1 0 = pat.getD i 0 then j1 + 1 else j1
    kmpTableGo pat steps j2 (lookup ++ [j2])

/-- The failure table built by kmp_init: `lookup[0] = 0` comes from calloc,
entries `1 .. patlen-1` from the construction loop. -/
def kmp_table (pat : Bytes) : List Nat :=
  if pat.length = 0 then [] else kmpTableGo pat (pat.length - 1) 0 [0]

/-- struct kmp_state: a resumable search cursor. -/
structure KmpState where
  i : Nat
  j : Nat
  text : Bytes
  pat : Bytes
  lookup : List Nat
deriving Repr, DecidableEq

/-- kmp_init followed by findsetup's `s->i = start`. -/
def kmp_init (text pat : Bytes) (start : Nat) : KmpState :=
  { i := start, j := 0, text := text, pat := pat, lookup := kmp_table pat }

/-- kmp_seti: rewind the cursor to `(i, j = 0)`. -/
def kmp_seti (s : KmpState) (i : Nat) : KmpState := { s with i := i, j := 0 }

/-- kmp_next, with fuel bounding the loop iterations
(each iteration increases `2*i - j`, so `2*textlen + 2` fuel is enough).
Returns the found offset (or none) and the updated cursor. -/
def kmp_nextF : KmpState → Nat → Option Nat × KmpState
  | s, 0 => (none, s)
  | s, fuel+1 =>
    if s.i < s.text.length then
      if s.text.getD s.i 0 = s.pat.getD s.j 0 then
        if s.j = s.pat.length - 1 then
          (some (s.i - s.j), { s with i := s.i + 1, j := s.lookup.getD s.j 0 })
        else kmp_nextF { s with i := s.i + 1, j := s.j + 1 } fuel
      else if 0 < s.j then kmp_nextF { s with j := s.lookup.getD (s.j - 1) 0 } fuel
      else kmp_nextF { s with i := s.i + 1 } fuel
    else (none, s)

/-- Fuel that always suffices for one kmp_next scan. -/
def kmpFuel (s : KmpState) : Nat := 2 * s.text.length + 2

/-- One resumed kmp_next step. -/
def kmp_next (s : KmpState) : Option Nat × KmpState := kmp_nextF s (kmpFuel s)

/-- cfun_string_find: first occurrence at or after the start offset. -/
def string_find (pat text : Bytes) (start : Nat) : Option Nat :=
  (kmp_next (kmp_init text pat start)).1

/-- The loop of cfun_string_findall: repeatedly resume the same cursor.
Successive hits have strictly increasing offsets, so `textlen + 1` outer
iterations always suffice. -/
def findAllGo : KmpState → Nat → List Nat
  | _, 0 => []
  | s, fuel+1 =>
    match kmp_next s with
    | (none, _) => []
    | (some o, s') => o :: findAllGo s' fuel

/-- cfun_string_findall. -/
def string_findall (pat text : Bytes) (start : Nat) : List Nat :=
  findAllGo (kmp_init text pat start) (text.length + 1)

/-- cfun_string_replace: replace the first occurrence, or return the
original text when there is none. -/
def string_replace (pat subst text : Bytes) (start : Nat) : Bytes :=
  match (kmp_next (kmp_init text pat start)).1 with
  | none => text
  | some o => text.take o ++ subst ++ text.drop (o + pat.length)

/-- The loop of cfun_string_replaceall: after each hit the cursor is
rewound via kmp_seti to `(matchEnd, j = 0)`; between hits the unmatched
span is copied verbatim and the match replaced by the substitute. -/
def replaceAllGo (subst : Bytes) : KmpState → Nat → Nat → Bytes
  | s, lastindex, 0 => s.text.drop lastindex
  | s, lastindex, fuel+1 =>
    match kmp_next s with
    | (none, _) => s.text.drop lastindex
    | (some o, s') =>
      (s.text.drop lastindex).take (o - lastindex) ++ subst ++
        replaceAllGo subst (kmp_seti s' (o + s.pat.length)) (o + s.pat.length) fuel

/-- cfun_string_replaceall. -/
def string_replaceall (pat subst text : Bytes) (start : Nat) : Bytes :=
  replaceAllGo subst (kmp_init text pat start) 0 (text.length + 1)

/-! ## Specification-side notions for the exact-match engine -/

/-- The pattern occurs in the text at offset `o` (bytewise equality of
`text[o .. o+patlen)` with the pattern; forces `o + patlen <= textlen`). -/
def occursAt (pat text : Bytes) (o : Nat) : Prop :=
  (text.drop o).take pat.length = pat

instance occursAt.dec (pat text : Bytes) (o : Nat) : Decidable (occursAt pat text o) := by
  unfold occursAt; infer_instance

/-- `k` is a border length of `l`: the length-`k` prefix of `l` equals its
length-`k` suffix. -/
def Bord (l : Bytes) (k : Nat) : Prop :=
  k ≤ l.length ∧ l.take k = l.drop (l.length - k)

instance Bord.dec (l : Bytes) (k : Nat) : Decidable (Bord l k) := by
  unfold Bord; infer_instance

lemma bord_zero (l : Bytes) : Bord l 0 := by
  refine ⟨Nat.zero_le _, ?_⟩
  simp

lemma take_succ_getD {l : Bytes} {k : Nat} (hk : k < l.length) :
    l.take (k+1) = l.take k ++ [l.getD k 0] := by
  rw [List.take_succ, List.getElem?_eq_getElem hk]
  simp [List.getD_eq_getElem?_getD, List.getElem?_eq_getElem hk]

lemma getD_take {l : Bytes} {k n : Nat} (hk : k < n) :
    (l.take n).getD k 0 = l.getD k 0 := by
  rw [List.getD_eq_getElem?_getD, List.getD_eq_getElem?_getD, List.getElem?_take,
    if_pos hk]

lemma getD_drop {l : Bytes} (m k : Nat) :
    (l.drop m).getD k 0 = l.getD (m + k) 0 := by
  rw [List.getD_eq_getElem?_getD, List.getD_eq_getElem?_getD, List.getElem?_drop]

/-- Inside the length-`j` prefix of `l`, a border of `l` of length `k ≤ j`
is the same thing as a border of the prefix. -/
lemma bord_take_iff {l : Bytes} {j k : Nat} (hj : Bord l j) (hkj : k ≤ j) :
    Bord (l.take j) k ↔ Bord l k := by
  obtain ⟨hjlen, hjeq⟩ := hj
  have hlen : (l.take j).length = j := by simp [List.length_take]; omega
  have hdrop : (l.take j).drop (j - k) = l.drop (l.length - k) := by
    rw [hjeq, List.drop_drop]
    congr 1
    omega
  have htake : (l.take j).take k = l.take k := by
    rw [List.take_take]
    congr 1
    omega
  constructor
  · rintro ⟨-, h⟩
    rw [hlen, hdrop, htake] at h
    exact ⟨by omega, h⟩
  · rintro ⟨-, h⟩
    exact ⟨by omega, by rw [hlen, hdrop, htake]; exact h⟩

/-- Extending a string by one byte: borders of length `k+1` of `l ++ [c]`
are borders `k` of `l` whose following byte is `c`. -/
lemma bord_snoc_iff {l : Bytes} {c : Nat} {k : Nat} (hk : k < l.length) :
    Bord (l ++ [c]) (k+1) ↔ Bord l k ∧ l.getD k 0 = c := by
  have hlen : (l ++ [c]).length = l.length + 1 := by simp
  have htake : (l ++ [c]).take (k+1) = l.take k ++ [l.getD k 0] := by
    rw [List.take_append_of_le_length (by omega), take_succ_getD hk]
  have hdrop : (l ++ [c]).drop ((l ++ [c]).length - (k+1)) = l.drop (l.length - k) ++ [c] := by
    rw [hlen]
    rw [show l.length + 1 - (k+1) = l.length - k by omega,
      List.drop_append_of_le_length (by omega)]
  constructor
  · rintro ⟨-, h⟩
    rw [htake, hdrop] at h
    have := List.append_inj h (by simp [List.length_take, List.length_drop]; omega)
    refine ⟨⟨by omega, this.1⟩, ?_⟩
    have := this.2
    simpa using this
  · rintro ⟨⟨-, h1⟩, h2⟩
    refine ⟨by omega, ?_⟩
    rw [htake, hdrop, h1, h2]

/-- Occurrences force the match to fit inside the text. -/
lemma occursAt_le {pat text : Bytes} {o : Nat} (hp : 0 < pat.length)
    (h : occursAt pat text o) : o + pat.length ≤ text.length := by
  unfold occursAt at h
  have := congrArg List.length h
  simp [List.length_take, List.length_drop] at this
  omega

/-- A byte of an occurrence: `text[o + t] = pat[t]`. -/
lemma occursAt_getD {pat text : Bytes} {o t : Nat}
    (h : occursAt pat text o) (ht : t < pat.length) :
    text.getD (o + t) 0 = pat.getD t 0 := by
  unfold occursAt at h
  have := congrArg (fun l => List.getD l t 0) h
  simp only at this
  rw [getD_take ht, getD_drop] at this
  exact this

/-- Overlap of an occurrence with a matched window yields a border of the
pattern prefix `pat.take j`. -/
lemma partial_overlap_bord {pat text : Bytes} {d j o : Nat}
    (hj : j ≤ pat.length)
    (hW : (text.drop d).take j = pat.take j)
    (hocc : occursAt pat text o)
    (h1 : d < o) (h2 : o < d + j) :
    Bord (pat.take j) (d + j - o) := by
  set k := d + j - o with hkdef
  have hkj : k ≤ j := by omega
  have hlen : (pat.take j).length = j := by simp [List.length_take]; omega
  refine ⟨by omega, ?_⟩
  rw [hlen]
  have htake : (pat.take j).take k = (text.drop o).take k := by
    rw [List.take_take, show min k j = k by omega]
    unfold occursAt at hocc
    have := congrArg (List.take k) hocc
    rw [List.take_take, show min k pat.length = k by omega] at this
    exact this.symm
  have hdrop : (pat.take j).drop (j - k) = (text.drop o).take k := by
    rw [← hW, List.drop_take, List.drop_drop]
    rw [show d + (j - k) = o by omega, show j - (j - k) = k by omega]
  rw [htake, hdrop]

/-! ### Correctness of the failure table -/

/-- The invariant of the (partially built) failure table: each entry is the
longest proper border of the corresponding pattern prefix. -/
def TableInv (pat : Bytes) (lookup : List Nat) : Prop :=
  ∀ i, i < lookup.length →
    lookup.getD i 0 ≤ i ∧
    Bord (pat.take (i+1)) (lookup.getD i 0) ∧
    ∀ k, Bord (pat.take (i+1)) k → k ≤ i → k ≤ lookup.getD i 0

/-- Correctness of the fallback loop `while (j && pat[j] != pat[i])`:
it descends the border chain of `pat.take m` and stops at the largest
border that either is 0 or is followed by the byte `c`. -/
lemma kmpFall_spec {pat : Bytes} {lookup : List Nat} {m : Nat} (c : Nat)
    (hTI : TableInv pat lookup) (hml : m ≤ lookup.length + 1) (_hmp : m ≤ pat.length) :
    ∀ fuel j, j ≤ fuel → Bord (pat.take m) j → j < m →
    Bord (pat.take m) (kmpFall pat lookup c j fuel) ∧
    kmpFall pat lookup c j fuel ≤ j ∧
    (kmpFall pat lookup c j fuel = 0 ∨ pat.getD (kmpFall pat lookup c j fuel) 0 = c) ∧
    (∀ k, Bord (pat.take m) k → k ≤ j → pat.getD k 0 = c → k ≤ kmpFall pat lookup c j fuel) := by
  intro fuel
  induction fuel with
  | zero =>
    intro j hj hb hjm
    have : j = 0 := by omega
    subst this
    refine ⟨hb, le_refl _, Or.inl rfl, ?_⟩
    intro k _ hk _
    simpa [kmpFall] using hk
  | succ fuel ih =>
    intro j hj hb hjm
    rw [kmpFall]
    by_cases hcond : j ≠ 0 ∧ pat.getD j 0 ≠ c
    · rw [if_pos hcond]
      obtain ⟨hj0, hjc⟩ := hcond
      -- j ≥ 1; the table entry at j-1 is available
      have hj1 : j - 1 < lookup.length := by omega
      obtain ⟨hle, hbord, hmax⟩ := hTI (j-1) hj1
      rw [show j - 1 + 1 = j by omega] at hbord hmax
      set j' := lookup.getD (j-1) 0 with hj'def
      -- j' is a border of pat.take j, hence of pat.take m
      have hbj' : Bord (pat.take m) j' := by
        have h1 : Bord ((pat.take m).take j) j' := by
          rw [List.take_take, show min j m = j by omega]
          exact hbord
        exact ((bord_take_iff hb (by omega)).mp h1)
      have hrec := ih j' (by omega) hbj' (by omega)
      refine ⟨hrec.1, by omega, hrec.2.2.1, ?_⟩
      intro k hk hkj hkc
      have hkj' : k ≤ j' := by
        rcases Nat.lt_or_ge k j with hlt | hge
        · -- k < j: k is a border of pat.take j, bounded by the table entry
          have hbk : Bord ((pat.take m).take j) k := by
            exact (bord_take_iff hb hkj).mpr hk
          rw [List.take_take, show min j m = j by omega] at hbk
          exact hmax k hbk (by omega)
        · -- k = j impossible since pat[j] ≠ c
          have : k = j := by omega
          subst this
          exact absurd hkc hjc
      exact hrec.2.2.2 k hk hkj' hkc
    · rw [if_neg hcond]
      push_neg at hcond
      refine ⟨hb, le_refl _, ?_, ?_⟩
      · by_cases h0 : j = 0
        · exact Or.inl h0
        · exact Or.inr (hcond h0)
      · intro k _ hk _
        exact hk

/-- The construction loop preserves the table invariant. -/
lemma kmpTableGo_spec (pat : Bytes) :
    ∀ steps j lookup,
    TableInv pat lookup →
    1 ≤ lookup.length →
    steps + lookup.length = pat.length →
    j = lookup.getD (lookup.length - 1) 0 →
    TableInv pat (kmpTableGo pat steps j lookup) ∧
    (kmpTableGo pat steps j lookup).length = pat.length := by
  intro steps
  induction steps with
  | zero =>
    intro j lookup hTI _ hlen _
    exact ⟨hTI, by simpa [kmpTableGo] using hlen⟩
  | succ steps ih =>
    intro j lookup hTI h1 hlen hj
    rw [kmpTableGo]
    set i := lookup.length with hidef
    have hip : i < pat.length := by omega
    set c := pat.getD i 0 with hcdef
    -- entry at i-1 gives the invariant for the incoming j
    obtain ⟨hjle, hjbord, hjmax⟩ := hTI (i-1) (by omega)
    rw [show i - 1 + 1 = i by omega] at hjbord hjmax
    rw [← hj] at hjle hjbord hjmax
    have hfall := kmpFall_spec c hTI (by omega) (le_of_lt hip) j j (le_refl _) hjbord (by omega)
    set j1 := kmpFall pat lookup c j j with hj1def
    obtain ⟨hb1, hle1, hstop1, hmax1⟩ := hfall
    set j2 := if pat.getD j1 0 = pat.getD i 0 then j1 + 1 else j1 with hj2def
    have htakei : pat.take (i+1) = pat.take i ++ [c] := take_succ_getD hip
    have htilen : (pat.take i).length = i := by simp [List.length_take]; omega
    -- the new entry j2 is the longest proper border of pat.take (i+1)
    have hnew : j2 ≤ i ∧ Bord (pat.take (i+1)) j2 ∧
        ∀ k, Bord (pat.take (i+1)) k → k ≤ i → k ≤ j2 := by
      by_cases hc : pat.getD j1 0 = pat.getD i 0
      · have hj2 : j2 = j1 + 1 := by rw [hj2def, if_pos hc]
        rw [hj2]
        have hj1i : j1 < i := by omega
        refine ⟨by omega, ?_, ?_⟩
        · rw [htakei]
          refine (bord_snoc_iff (by omega)).mpr ⟨hb1, ?_⟩
          rw [getD_take hj1i]
          exact hc
        · intro k hk hki
          match k, hk with
          | 0, _ => omega
          | (k'+1), hk =>
            rw [htakei] at hk
            have hk' := (@bord_snoc_iff (pat.take i) c k' (by omega)).mp hk
            have hk'c : pat.getD k' 0 = c := by
              rw [← @getD_take pat k' i (by omega)]
              exact hk'.2
            have hk'j : k' ≤ j := hjmax k' hk'.1 (by omega)
            have := hmax1 k' hk'.1 hk'j hk'c
            omega
      · have hj2 : j2 = j1 := by rw [hj2def, if_neg hc]
        have hj10 : j1 = 0 := by
          rcases hstop1 with h | h
          · exact h
          · exact absurd h hc
        rw [hj2, hj10]
        refine ⟨Nat.zero_le _, bord_zero _, ?_⟩
        intro k hk hki
        match k, hk with
        | 0, _ => omega
        | (k'+1), hk =>
          rw [htakei] at hk
          have hk' := (@bord_snoc_iff (pat.take i) c k' (by omega)).mp hk
          have hk'c : pat.getD k' 0 = c := by
            rw [← @getD_take pat k' i (by omega)]
            exact hk'.2
          have hk'j : k' ≤ j := hjmax k' hk'.1 (by omega)
          have := hmax1 k' hk'.1 hk'j hk'c
          rw [hj10] at this
          have : k' = 0 := by omega
          subst this
          exact absurd (by rw [hj10]; exact hk'c) hc
    -- extend the invariant to lookup ++ [j2]
    have hTI' : TableInv pat (lookup ++ [j2]) := by
      intro i' hi'
      simp only [List.length_append, List.length_singleton] at hi'
      rcases Nat.lt_or_ge i' i with hlt | hge
      · rw [List.getD_append _ _ _ _ hlt]
        exact hTI i' hlt
      · have : i' = i := by omega
        subst this
        rw [List.getD_append_right _ _ _ _ (le_refl _)]
        simpa using hnew
    have := ih j2 (lookup ++ [j2]) hTI' (by simp) (by simp; omega)
      (by simp only [List.length_append, List.length_singleton]
          rw [show i + 1 - 1 = i  by omega, List.getD_append_right _ _ _ _ (le_refl _)]
          simp)
    simpa using this

/-- kmp_init builds the correct failure table. -/
lemma kmp_table_spec (pat : Bytes) :
    TableInv pat (kmp_table pat) ∧ (kmp_table pat).length = pat.length := by
  unfold kmp_table
  by_cases h : pat.length = 0
  · rw [if_pos h]
    exact ⟨by intro i hi; simp at hi, by simp [h]⟩
  · rw [if_neg h]
    have hTI : TableInv pat [0] := by
      intro i hi
      simp only [List.length_singleton] at hi
      have : i = 0 := by omega
      subst this
      refine ⟨le_refl _, bord_zero _, ?_⟩
      intro k _ hk
      simpa using hk
    exact kmpTableGo_spec pat (pat.length - 1) 0 [0] hTI (by simp) (by simp; omega) (by simp)

/-! ### Correctness of the resumable scan (kmp_next) -/

/-- The invariant of a live kmp cursor: the table is the failure table of
the pattern, the window `text[i-j .. i)` matches the length-`j` pattern
prefix, and no occurrence starts in `[lo, i-j)`. -/
def ScanInv (s : KmpState) (lo : Nat) : Prop :=
  s.lookup = kmp_table s.pat ∧
  0 < s.pat.length ∧
  s.j < s.pat.length ∧
  lo + s.j ≤ s.i ∧
  (s.text.drop (s.i - s.j)).take s.j = s.pat.take s.j ∧
  ∀ o, lo ≤ o → o < s.i - s.j → ¬ occursAt s.pat s.text o

/-- Once the text index passes the end of the text, no occurrence at or
after `lo` exists. -/
lemma scanInv_exhausted {s : KmpState} {lo : Nat} (h : ScanInv s lo)
    (hi : s.text.length ≤ s.i) :
    ∀ o, lo ≤ o → ¬ occursAt s.pat s.text o := by
  obtain ⟨-, hp, hjp, hji, -, hcomp⟩ := h
  intro o hlo hocc
  rcases Nat.lt_or_ge o (s.i - s.j) with hlt | hge
  · exact hcomp o hlo hlt hocc
  · have := occursAt_le hp hocc
    omega

lemma kmp_nextF_correct : ∀ (fuel : Nat) (s : KmpState) (lo : Nat),
    ScanInv s lo →
    2 * s.text.length + s.j + 1 ≤ fuel + 2 * s.i →
    (∀ o s', kmp_nextF s fuel = (some o, s') →
       lo ≤ o ∧ occursAt s.pat s.text o ∧
       (∀ o', lo ≤ o' → o' < o → ¬ occursAt s.pat s.text o') ∧
       ScanInv s' (o + 1) ∧ s'.text = s.text ∧ s'.pat = s.pat ∧ s'.lookup = s.lookup) ∧
    (∀ s', kmp_nextF s fuel = (none, s') →
       ∀ o, lo ≤ o → ¬ occursAt s.pat s.text o) := by
  intro fuel
  induction fuel with
  | zero =>
    intro s lo hinv hfuel
    refine ⟨by intro o s' h; simp [kmp_nextF] at h, ?_⟩
    intro s' _ o hlo
    have hji : s.j ≤ s.i := by have := hinv.2.2.2.1; omega
    exact scanInv_exhausted hinv (by omega) o hlo
  | succ fuel ih =>
    intro s lo hinv hfuel
    obtain ⟨hlk, hp, hjp, hji, hwin, hcomp⟩ := hinv
    obtain ⟨hTI, hTlen⟩ := kmp_table_spec s.pat
    rw [← hlk] at hTI hTlen
    by_cases hiT : s.i < s.text.length
    · by_cases hmatch : s.text.getD s.i 0 = s.pat.getD s.j 0
      · by_cases hjlast : s.j = s.pat.length - 1
        · -- a full match is reported at i - j
          rw [kmp_nextF, if_pos hiT, if_pos hmatch, if_pos hjlast]
          have hd : s.i - s.j + s.j = s.i := by omega
          -- the full window is an occurrence
          have hoccm : occursAt s.pat s.text (s.i - s.j) := by
            unfold occursAt
            have hlen : s.j < (s.text.drop (s.i - s.j)).length := by
              rw [List.length_drop]; omega
            have hstep : (s.text.drop (s.i - s.j)).take (s.j + 1) =
                (s.text.drop (s.i - s.j)).take s.j ++ [s.text.getD s.i 0] := by
              rw [take_succ_getD hlen, getD_drop, hd]
            rw [show s.pat.length = s.j + 1 by omega, hstep, hwin, hmatch,
              show s.pat.getD s.j 0 = (s.pat.take (s.j+1)).getD s.j 0 by
                rw [getD_take (Nat.lt_succ_self _)]]
            rw [show (s.j : Nat) + 1 = s.pat.length by omega, List.take_length,
              ← take_succ_getD (by omega), show (s.j : Nat) + 1 = s.pat.length by omega,
              List.take_length]
          refine ⟨?_, ?_⟩
          · intro o s' heq
            injection heq with h1 h2
            injection h1 with h1
            subst h1
            subst h2
            set j'' := s.lookup.getD s.j 0 with hj''def
            obtain ⟨hj''le, hj''bord, hj''max⟩ := hTI s.j (by omega)
            rw [show s.j + 1 = s.pat.length by omega, List.take_length] at hj''bord hj''max
            refine ⟨by omega, hoccm, ?_, ?_, rfl, rfl, rfl⟩
            · intro o' hlo' ho'
              exact hcomp o' hlo' ho'
            · -- the continued cursor (i+1, lookup[patlen-1]) is again valid
              refine ⟨hlk, hp, by simp; omega, by simp; omega, ?_, ?_⟩
              · -- new window from the border j'' of the whole pattern
                simp only
                obtain ⟨-, hbeq⟩ := hj''bord
                have : (s.text.drop (s.i + 1 - j'')).take j'' =
                    ((s.text.drop (s.i - s.j)).take s.pat.length).drop (s.pat.length - j'') := by
                  rw [List.drop_take, List.drop_drop]
                  rw [show s.i - s.j + (s.pat.length - j'') = s.i + 1 - j'' by omega,
                    show s.pat.length - (s.pat.length - j'') = j'' by omega]
                rw [this, hoccm, ← hbeq]
              · -- no occurrence hides in (i-j, i+1-j'')
                simp only
                intro o hlo1 ho hocc
                have hb := @partial_overlap_bord s.pat s.text (s.i - s.j) s.pat.length o
                  (le_refl _) (by rw [List.take_length]; exact hoccm) hocc (by omega) (by omega)
                rw [List.take_length] at hb
                have := hj''max (s.i - s.j + s.pat.length - o) hb (by omega)
                omega
          · intro s' heq
            exact absurd heq (by simp)
        · -- partial match extends: (i+1, j+1)
          rw [kmp_nextF, if_pos hiT, if_pos hmatch, if_neg hjlast]
          have hinv' : ScanInv { s with i := s.i + 1, j := s.j + 1 } lo := by
            refine ⟨hlk, hp, by simp; omega, by simp; omega, ?_, ?_⟩
            · simp only
              have hd : s.i + 1 - (s.j + 1) = s.i - s.j := by omega
              have hlen : s.j < (s.text.drop (s.i - s.j)).length := by
                rw [List.length_drop]; omega
              rw [hd, take_succ_getD hlen, getD_drop,
                show s.i - s.j + s.j = s.i by omega, hwin, hmatch,
                take_succ_getD (by omega)]
            · simp only
              intro o hlo ho
              exact hcomp o hlo (by omega)
          have := ih { s with i := s.i + 1, j := s.j + 1 } lo hinv' (by simp; omega)
          simpa using this
      · by_cases hj0 : 0 < s.j
        · -- mismatch with partial match: fall back via the table
          rw [kmp_nextF, if_pos hiT, if_neg hmatch, if_pos hj0]
          set j' := s.lookup.getD (s.j - 1) 0 with hj'def
          obtain ⟨hj'le, hj'bord, hj'max⟩ := hTI (s.j - 1) (by omega)
          rw [show s.j - 1 + 1 = s.j by omega] at hj'bord hj'max
          have hinv' : ScanInv { s with j := j' } lo := by
            refine ⟨hlk, hp, by simp; omega, by simp; omega, ?_, ?_⟩
            · -- window for the border j'
              simp only
              obtain ⟨-, hbeq⟩ := hj'bord
              have hlen : (s.pat.take s.j).length = s.j := by
                simp [List.length_take]; omega
              rw [hlen] at hbeq
              have : (s.text.drop (s.i - j')).take j' =
                  ((s.text.drop (s.i - s.j)).take s.j).drop (s.j - j') := by
                rw [List.drop_take, List.drop_drop]
                rw [show s.i - s.j + (s.j - j') = s.i - j' by omega,
                  show s.j - (s.j - j') = j' by omega]
              rw [this, hwin, ← hbeq, List.take_take, show min j' s.j = j' by omega]
            · -- no occurrence starts in [i-j, i-j')
              simp only
              intro o hlo ho hocc
              rcases Nat.lt_or_ge o (s.i - s.j) with h1 | h1
              · exact hcomp o hlo h1 hocc
              · rcases Nat.eq_or_lt_of_le h1 with h2 | h2
                · -- o = i - j would force text[i] = pat[j]
                  have := @occursAt_getD s.pat s.text o s.j hocc (by omega)
                  rw [← h2, show s.i - s.j + s.j = s.i by omega] at this
                  exact hmatch this
                · -- i-j < o < i-j' contradicts maximality of the border
                  have hb := @partial_overlap_bord s.pat s.text (s.i - s.j) s.j o
                    (by omega) hwin hocc h2 (by omega)
                  have := hj'max (s.i - s.j + s.j - o) hb (by omega)
                  omega
          have := ih { s with j := j' } lo hinv' (by simp; omega)
          simpa using this
        · -- mismatch at automaton state 0: advance the text index
          rw [kmp_nextF, if_pos hiT, if_neg hmatch, if_neg hj0]
          have hj0' : s.j = 0 := by omega
          have hinv' : ScanInv { s with i := s.i + 1 } lo := by
            refine ⟨hlk, hp, by simp; omega, by simp; omega, ?_, ?_⟩
            · simp only [hj0', List.take_zero]
            · simp only
              intro o hlo ho hocc
              rcases Nat.lt_or_ge o (s.i - s.j) with h1 | h1
              · exact hcomp o hlo h1 hocc
              · have ho' : o = s.i := by omega
                have := @occursAt_getD s.pat s.text o 0 hocc (by omega)
                rw [ho'] at this
                rw [hj0'] at hmatch
                exact hmatch (by simpa using this)
          have := ih { s with i := s.i + 1 } lo hinv' (by simp; omega)
          simpa using this
    · -- text exhausted: return none
      rw [kmp_nextF, if_neg hiT]
      refine ⟨by intro o s' h; simp at h, ?_⟩
      intro s' _ o hlo
      exact scanInv_exhausted ⟨hlk, hp, hjp, hji, hwin, hcomp⟩ (by omega) o hlo

/-- The cursor built by findsetup satisfies the scan invariant. -/
lemma scanInv_init (pat text : Bytes) (start : Nat) (hp : 0 < pat.length) :
    ScanInv (kmp_init text pat start) start := by
  refine ⟨rfl, hp, hp, by simp [kmp_init], by simp [kmp_init], ?_⟩
  intro o hlo ho
  simp [kmp_init] at ho
  omega

/-- A cursor rewound by kmp_seti satisfies the scan invariant. -/
lemma scanInv_seti {s : KmpState} (hs : s.lookup = kmp_table s.pat)
    (hp : 0 < s.pat.length) (i : Nat) :
    ScanInv (kmp_seti s i) i := by
  refine ⟨hs, hp, hp, by simp [kmp_seti], by simp [kmp_seti], ?_⟩
  intro o hlo ho
  simp [kmp_seti] at ho
  omega

/-- Correctness of one resumed kmp_next step. -/
lemma kmp_next_correct {s : KmpState} {lo : Nat} (hinv : ScanInv s lo) :
    (∀ o s', kmp_next s = (some o, s') →
       lo ≤ o ∧ occursAt s.pat s.text o ∧
       (∀ o', lo ≤ o' → o' < o → ¬ occursAt s.pat s.text o') ∧
       ScanInv s' (o + 1) ∧ s'.text = s.text ∧ s'.pat = s.pat ∧ s'.lookup = s.lookup) ∧
    (∀ s', kmp_next s = (none, s') →
       ∀ o, lo ≤ o → ¬ occursAt s.pat s.text o) := by
  have hji : lo + s.j ≤ s.i := hinv.2.2.2.1
  exact kmp_nextF_correct (kmpFuel s) s lo hinv (by unfold kmpFuel; omega)

/-- The find-all loop enumerates every occurrence at or after `lo`,
in increasing order. -/
lemma findAllGo_spec : ∀ (fuel : Nat) (s : KmpState) (lo : Nat),
    ScanInv s lo →
    s.text.length + 1 ≤ fuel + lo →
    (∀ o ∈ findAllGo s fuel, lo ≤ o ∧ occursAt s.pat s.text o) ∧
    (∀ o, lo ≤ o → occursAt s.pat s.text o → o ∈ findAllGo s fuel) ∧
    List.Pairwise (fun a b => a < b) (findAllGo s fuel) := by
  intro fuel
  induction fuel with
  | zero =>
    intro s lo hinv hfuel
    refine ⟨by simp [findAllGo], ?_, by simp [findAllGo]⟩
    intro o hlo hocc
    have := occursAt_le hinv.2.1 hocc
    omega
  | succ fuel ih =>
    intro s lo hinv hfuel
    obtain ⟨hsome, hnone⟩ := kmp_next_correct hinv
    rw [findAllGo]
    rcases hres : kmp_next s with ⟨r, s'⟩
    cases r with
    | none =>
      simp only
      refine ⟨by simp, ?_, by simp⟩
      intro o hlo hocc
      exact absurd hocc (hnone s' hres o hlo)
    | some o =>
      simp only
      obtain ⟨hlo, hocc, hleft, hinv', htext, hpat, -⟩ := hsome o s' hres
      have hole := occursAt_le hinv.2.1 hocc
      have := ih s' (o + 1) hinv' (by rw [htext]; omega)
      rw [htext, hpat] at this
      obtain ⟨ha, hb, hc⟩ := this
      refine ⟨?_, ?_, ?_⟩
      · intro o' ho'
        rcases List.mem_cons.mp ho' with h | h
        · subst h; exact ⟨hlo, hocc⟩
        · have := ha o' h
          exact ⟨by omega, this.2⟩
      · intro o' hlo' hocc'
        rcases Nat.lt_or_ge o' o with h | h
        · exact absurd hocc' (hleft o' hlo' h)
        · rcases Nat.eq_or_lt_of_le h with h | h
          · exact List.mem_cons.mpr (Or.inl h.symm)
          · exact List.mem_cons.mpr (Or.inr (hb o' (by omega) hocc'))
      · refine List.pairwise_cons.mpr ⟨?_, hc⟩
        intro o' ho'
        have := ha o' ho'
        omega

/-- C1 — find-all returns all (possibly overlapping) occurrences at or
after the start offset in increasing order; on pattern "aba" and text
"ababa" this yields the overlapping hits [0, 2]. -/
theorem findall_overlapping_occurrences (pat text : Bytes) (start : Nat)
    (hp : 0 < pat.length) :
    (∀ o ∈ string_findall pat text start, start ≤ o ∧ occursAt pat text o) ∧
    (∀ o, start ≤ o → occursAt pat text o → o ∈ string_findall pat text start) ∧
    List.Pairwise (fun a b => a < b) (string_findall pat text start) ∧
    string_findall [97, 98, 97] [97, 98, 97, 98, 97] 0 = [0, 2] := by
  have := findAllGo_spec (text.length + 1) (kmp_init text pat start) start
    (scanInv_init pat text start hp) (by simp [kmp_init])
  simp only [kmp_init] at this
  exact ⟨this.1, this.2.1, this.2.2, by decide⟩

theorem findall_overlapping_occurrences_witness :
    (0 < ([97, 98, 97] : Bytes).length) ∧
    string_findall [97, 98, 97] [97, 98, 97, 98, 97] 0 = [0, 2] :=
  ⟨by decide,
   (findall_overlapping_occurrences [97, 98, 97] [97, 98, 97, 98, 97] 0 (by decide)).2.2.2⟩

/-- C3 — find returns the leftmost occurrence at or after the start
offset, or none when there is no such occurrence; find("ab","aabab",0)=1. -/
theorem find_leftmost_occurrence (pat text : Bytes) (start : Nat)
    (hp : 0 < pat.length) :
    (∀ o, string_find pat text start = some o →
       start ≤ o ∧ occursAt pat text o ∧
       ∀ o', start ≤ o' → o' < o → ¬ occursAt pat text o') ∧
    (string_find pat text start = none →
       ∀ o, start ≤ o → ¬ occursAt pat text o) ∧
    string_find [97, 98] [97, 97, 98, 97, 98] 0 = some 1 := by
  obtain ⟨hsome, hnone⟩ := kmp_next_correct (scanInv_init pat text start hp)
  unfold string_find
  rcases hres : kmp_next (kmp_init text pat start) with ⟨r, s'⟩
  refine ⟨?_, ?_, by decide⟩
  · intro o ho
    simp only at ho
    subst ho
    have := hsome o s' hres
    exact ⟨this.1, this.2.1, this.2.2.1⟩
  · intro hr o hlo
    simp only at hr
    subst hr
    exact hnone s' hres o hlo

theorem find_leftmost_occurrence_witness :
    (0 < ([97, 98] : Bytes).length) ∧
    string_find [97, 98] [97, 97, 98, 97, 98] 0 = some 1 :=
  ⟨by decide,
   (find_leftmost_occurrence [97, 98] [97, 97, 98, 97, 98] 0 (by decide)).2.2⟩

/-- The output assembled by the replace-all loop, as a function of the
list of match offsets: verbatim spans interleaved with the substitute. -/
def spliceAll (pat subst text : Bytes) : Nat → List Nat → Bytes
  | lastindex, [] => text.drop lastindex
  | lastindex, o :: rest =>
    (text.drop lastindex).take (o - lastindex) ++ subst ++
      spliceAll pat subst text (o + pat.length) rest

/-- The replace-all loop visits exactly the greedy non-overlapping
left-to-right occurrence sequence. -/
lemma replaceAllGo_spec : ∀ (fuel : Nat) (s : KmpState) (lo lastindex : Nat)
    (subst : Bytes),
    ScanInv s lo →
    s.text.length + 1 ≤ fuel + lo →
    ∃ occs : List Nat,
      (∀ o ∈ occs, lo ≤ o ∧ occursAt s.pat s.text o) ∧
      List.Pairwise (fun a b => a + s.pat.length ≤ b) occs ∧
      (∀ o', lo ≤ o' → occursAt s.pat s.text o' →
         ∃ o ∈ occs, o ≤ o' ∧ o' < o + s.pat.length) ∧
      replaceAllGo subst s lastindex fuel = spliceAll s.pat subst s.text lastindex occs := by
  intro fuel
  induction fuel with
  | zero =>
    intro s lo lastindex subst hinv hfuel
    refine ⟨[], by simp, by simp, ?_, by simp [replaceAllGo, spliceAll]⟩
    intro o hlo hocc
    have := occursAt_le hinv.2.1 hocc
    omega
  | succ fuel ih =>
    intro s lo lastindex subst hinv hfuel
    obtain ⟨hsome, hnone⟩ := kmp_next_correct hinv
    rw [replaceAllGo]
    rcases hres : kmp_next s with ⟨r, s'⟩
    cases r with
    | none =>
      refine ⟨[], by simp, by simp, ?_, by simp [spliceAll]⟩
      intro o hlo hocc
      exact absurd hocc (hnone s' hres o hlo)
    | some o =>
      obtain ⟨hlo, hocc, hleft, hinv', htext, hpat, hlk⟩ := hsome o s' hres
      have hp := hinv.2.1
      have hole := occursAt_le hp hocc
      have hinv'' : ScanInv (kmp_seti s' (o + s.pat.length)) (o + s.pat.length) := by
        apply scanInv_seti
        · rw [hlk, hpat, hinv.1]
        · rw [hpat]; exact hp
      have := ih (kmp_seti s' (o + s.pat.length)) (o + s.pat.length)
        (o + s.pat.length) subst hinv''
        (by simp only [kmp_seti, htext]; omega)
      simp only [kmp_seti, htext, hpat] at this
      obtain ⟨occs', ha, hpw, hcov, hres'⟩ := this
      refine ⟨o :: occs', ?_, ?_, ?_, ?_⟩
      · intro o' ho'
        rcases List.mem_cons.mp ho' with h | h
        · subst h; exact ⟨hlo, hocc⟩
        · have := ha o' h
          exact ⟨by omega, this.2⟩
      · refine List.pairwise_cons.mpr ⟨?_, hpw⟩
        intro o' ho'
        exact (ha o' ho').1
      · intro o' hlo' hocc'
        rcases Nat.lt_or_ge o' o with h | h
        · exact absurd hocc' (hleft o' hlo' h)
        · rcases Nat.lt_or_ge o' (o + s.pat.length) with h2 | h2
          · exact ⟨o, List.mem_cons_self _ _, h, h2⟩
          · obtain ⟨oo, hm, h3, h4⟩ := hcov o' h2 hocc'
            exact ⟨oo, List.mem_cons.mpr (Or.inr hm), h3, h4⟩
      · simp only [kmp_seti, htext, hpat]
        rw [hres']
        simp [spliceAll]

/-- Output length of the splice, plus the fact that the matches fit. -/
lemma spliceAll_length (pat subst text : Bytes) : ∀ (occs : List Nat) (lastindex : Nat),
    (∀ o ∈ occs, lastindex ≤ o ∧ o + pat.length ≤ text.length) →
    List.Pairwise (fun a b => a + pat.length ≤ b) occs →
    (spliceAll pat subst text lastindex occs).length =
      (text.length - lastindex) - occs.length * pat.length + occs.length * subst.length ∧
    (occs ≠ [] → lastindex + occs.length * pat.length ≤ text.length) := by
  intro occs
  induction occs with
  | nil =>
    intro lastindex _ _
    simp [spliceAll]
  | cons o rest ih =>
    intro lastindex hmem hpw
    obtain ⟨hli, hfit⟩ := hmem o (List.mem_cons_self _ _)
    obtain ⟨hhd, hpw'⟩ := List.pairwise_cons.mp hpw
    have hrest : ∀ o' ∈ rest, o + pat.length ≤ o' ∧ o' + pat.length ≤ text.length := by
      intro o' ho'
      exact ⟨hhd o' ho', (hmem o' (List.mem_cons.mpr (Or.inr ho'))).2⟩
    obtain ⟨ihlen, ihfit⟩ := ih (o + pat.length) hrest hpw'
    have htk : ((text.drop lastindex).take (o - lastindex)).length = o - lastindex := by
      simp [List.length_take, List.length_drop]
      omega
    have hbound : o + pat.length + rest.length * pat.length ≤ text.length := by
      by_cases hr : rest = []
      · subst hr; simpa using hfit
      · have := ihfit hr
        omega
    refine ⟨?_, ?_⟩
    · simp only [spliceAll, List.length_append, htk, ihlen, List.length_cons]
      rw [Nat.succ_mul, Nat.succ_mul]
      set M := rest.length * pat.length
      set S := rest.length * subst.length
      omega
    · intro _
      simp only [List.length_cons]
      rw [Nat.succ_mul]
      set M := rest.length * pat.length
      omega

/-- C2 — replace-all rewinds the cursor after each hit and therefore
replaces exactly the greedy non-overlapping left-to-right occurrences;
unmatched spans are copied verbatim; the output length follows the formula
len(T) - n*len(P) + n*len(S); replace_all("a","X","banana") = "bXnXnX". -/
theorem replaceall_nonoverlapping (pat subst text : Bytes) (start : Nat)
    (hp : 0 < pat.length) :
    ∃ occs : List Nat,
      (∀ o ∈ occs, start ≤ o ∧ occursAt pat text o) ∧
      List.Pairwise (fun a b => a + pat.length ≤ b) occs ∧
      (∀ o', start ≤ o' → occursAt pat text o' →
         ∃ o ∈ occs, o ≤ o' ∧ o' < o + pat.length) ∧
      string_replaceall pat subst text start = spliceAll pat subst text 0 occs ∧
      (string_replaceall pat subst text start).length =
        text.length - occs.length * pat.length + occs.length * subst.length ∧
      string_replaceall [97] [88] [98, 97, 110, 97, 110, 97] 0 =
        [98, 88, 110, 88, 110, 88] := by
  have := replaceAllGo_spec (text.length + 1) (kmp_init text pat start) start 0 subst
    (scanInv_init pat text start hp) (by simp [kmp_init])
  simp only [kmp_init] at this
  obtain ⟨occs, ha, hpw, hcov, hres⟩ := this
  have hlen := spliceAll_length pat subst text occs 0
    (fun o ho => ⟨Nat.zero_le _, occursAt_le hp (ha o ho).2⟩) hpw
  refine ⟨occs, ha, hpw, hcov, ?_, ?_, by decide⟩
  · unfold string_replaceall
    simp only [kmp_init]
    exact hres
  · unfold string_replaceall
    simp only [kmp_init]
    rw [hres, hlen.1]
    simp

theorem replaceall_nonoverlapping_witness :
    (0 < ([97] : Bytes).length) ∧
    string_replaceall [97] [88] [98, 97, 110, 97, 110, 97] 0 =
      [98, 88, 110, 88, 110, 88] :=
  ⟨by decide,
   by
     obtain ⟨-, -, -, -, -, h⟩ :=
       (replaceall_nonoverlapping [97] [88] [98, 97, 110, 97, 110, 97] 0 (by decide)).choose_spec
     exact h⟩

/-- C7 — replace leaves a pattern-free text unchanged, and otherwise
splices the substitute around the first occurrence. -/
theorem replace_first_or_identity (pat subst text : Bytes) (start : Nat)
    (hp : 0 < pat.length) :
    ((∀ o, start ≤ o → ¬ occursAt pat text o) →
       string_replace pat subst text start = text) ∧
    (∀ o, start ≤ o → occursAt pat text o →
       (∀ o', start ≤ o' → o' < o → ¬ occursAt pat text o') →
       string_replace pat subst text start = text.take o ++ subst ++ text.drop (o + pat.length)) := by
  obtain ⟨hsome, hnone⟩ := kmp_next_correct (scanInv_init pat text start hp)
  unfold string_replace
  rcases hres : kmp_next (kmp_init text pat start) with ⟨r, s'⟩
  cases r with
  | none =>
    refine ⟨fun _ => rfl, ?_⟩
    intro o hlo hocc _
    exact absurd hocc (hnone s' hres o hlo)
  | some o' =>
    obtain ⟨hlo', hocc', hleft', -, -, -, -⟩ := hsome o' s' hres
    refine ⟨?_, ?_⟩
    · intro hno
      exact absurd hocc' (hno o' hlo')
    · intro o hlo hocc hleft
      have h1 : ¬ o' < o := fun h => (hleft o' hlo' h) hocc'
      have h2 : ¬ o < o' := fun h => (hleft' o hlo h) hocc
      have : o' = o := by omega
      subst this
      rfl

theorem replace_first_or_identity_witness :
    (0 < ([120] : Bytes).length) ∧
    string_replace [120] [89] [97, 98, 99] 0 = [97, 98, 99] :=
  ⟨by decide,
   (replace_first_or_identity [120] [89] [97, 98, 99] 0 (by decide)).1
     (by
       intro o _ hocc
       have hle := @occursAt_le [120] [97, 98, 99] o (by decide) hocc
       have ho : o ≤ 2 := by simpa using hle
       interval_cases o <;> revert hocc <;> decide)⟩

/-! ## Pattern-match engine (Lua-style), from lines 456-892 of string.c

Pointers into the subject and pattern are modelled as indices; reading the
NUL terminator one past the end is modelled by `List.getD _ _ 0`.  A
`janet_panic` is modelled by an error result that propagates without
restoring any state (longjmp semantics). -/

def CAP_UNFINISHED : Int := -1
def CAP_POSITION : Int := -2
def MAXCAPTURES : Nat := 256
def MAXCCALLS : Nat := 200

/-- One entry of the capture array: subject start index and length
(`-1` = unfinished, `-2` = position capture). -/
structure Cap where
  init : Nat
  len : Int
deriving Repr, DecidableEq

instance : Inhabited Cap := ⟨⟨0, 0⟩⟩

/-- MatchState: the subject and pattern buffers plus the mutable fields.
The C capture array is fixed-size with a separate `level` counter; entries
at or above `level` are never read, so the model keeps exactly the live
prefix as a list (`level = capture.length`). -/
structure MState where
  src : Bytes
  pat : Bytes
  matchdepth : Nat
  capture : List Cap
deriving Repr, DecidableEq

/-- ASCII class predicates of the C locale, used by match_class. -/
def isalphaB (c : Nat) : Bool := decide ((65 ≤ c ∧ c ≤ 90) ∨ (97 ≤ c ∧ c ≤ 122))

def iscntrlB (c : Nat) : Bool := decide (c ≤ 31 ∨ c = 127)

def isdigitB (c : Nat) : Bool := decide (48 ≤ c ∧ c ≤ 57)

def isgraphB (c : Nat) : Bool := decide (33 ≤ c ∧ c ≤ 126)

def islowerB (c : Nat) : Bool := decide (97 ≤ c ∧ c ≤ 122)

def isalnumB (c : Nat) : Bool := isalphaB c || isdigitB c

def ispunctB (c : Nat) : Bool := isgraphB c && !(isalnumB c)

def isspaceB (c : Nat) : Bool := decide (c = 32 ∨ (9 ≤ c ∧ c ≤ 13))

def isupperB (c : Nat) : Bool := decide (65 ≤ c ∧ c ≤ 90)

def isxdigitB (c : Nat) : Bool :=
  isdigitB c || decide ((65 ≤ c ∧ c ≤ 70) ∨ (97 ≤ c ∧ c ≤ 102))

def tolowerB (c : Nat) : Nat := if 65 ≤ c ∧ c ≤ 90 then c + 32 else c

/-- The class dispatch of match_class; `none` is the default case. -/
def class_res (c cl : Nat) : Option Bool :=
  match tolowerB cl with
  | 97  => some (isalphaB c)   -- 'a'
  | 99  => some (iscntrlB c)   -- 'c'
  | 100 => some (isdigitB c)   -- 'd'
  | 103 => some (isgraphB c)   -- 'g'
  | 108 => some (islowerB c)   -- 'l'
  | 112 => some (ispunctB c)   -- 'p'
  | 115 => some (isspaceB c)   -- 's'
  | 117 => some (isupperB c)   -- 'u'
  | 119 => some (isalnumB c)   -- 'w'
  | 120 => some (isxdigitB c)  -- 'x'
  | 122 => some (decide (c = 0)) -- 'z'
  | _ => none

/-- match_class: class letter semantics, uppercase letter negates,
anything else matches itself literally. -/
def match_class (c cl : Nat) : Bool :=
  match class_res c cl with
  | some res => if islowerB cl then res else !res
  | none => decide (cl = c)

/-- The scan-for-']' loop of classend's '[' case. -/
def classendLoop (pat : Bytes) (p : Nat) : Except String Nat :=
  if h : pat.length ≤ p then .error "malformed pattern (missing ']')"
  else
    let p1 := if pat.getD p 0 = 37 ∧ p + 1 < pat.length then p + 2 else p + 1
    if pat.getD p1 0 = 93 then .ok (p1 + 1)
    else classendLoop pat p1
termination_by pat.length - p
decreasing_by
  split <;> omega

/-- classend: index just past the class starting at `p`. -/
def classend (pat : Bytes) (p : Nat) : Except String Nat :=
  let c := pat.getD p 0
  if c = 37 then  -- '%'
    if p + 1 = pat.length then .error "malformed pattern (ends with a percent)"
    else .ok (p + 2)
  else if c = 91 then  -- '['
    classendLoop pat (if pat.getD (p+1) 0 = 94 then p + 2 else p + 1)
  else .ok (p + 1)

/-- The element loop of matchbracketclass; `p` is the index of the last
processed set element, `ec` the index of the closing ']'. -/
def mbcLoop (pat : Bytes) (c : Nat) (ec : Nat) (sig : Bool) (p : Nat) : Bool :=
  if h : p + 1 < ec then
    let q := p + 1
    if pat.getD q 0 = 37 then  -- '%class'
      if match_class c (pat.getD (q+1) 0) then sig else mbcLoop pat c ec sig (q+1)
    else if pat.getD (q+1) 0 = 45 ∧ q + 2 < ec then  -- 'a-b' range
      if pat.getD q 0 ≤ c ∧ c ≤ pat.getD (q+2) 0 then sig else mbcLoop pat c ec sig (q+2)
    else if pat.getD q 0 = c then sig
    else mbcLoop pat c ec sig q
  else !sig
termination_by ec - p
decreasing_by
  all_goals omega

/-- matchbracketclass: membership of byte `c` in the set `[p .. ec]`
(`p` = index of '[', `ec` = index of ']'). -/
def matchbracketclass (pat : Bytes) (c : Nat) (p : Nat) (ec : Nat) : Bool :=
  if pat.getD (p+1) 0 = 94 then mbcLoop pat c ec false (p+1)  -- '^' negates
  else mbcLoop pat c ec true p

/-- singlematch: does the subject byte at `s` match the single class at
pattern index `p` (with `ep` just past the class)? -/
def singlematch (ms : MState) (s : Nat) (p : Nat) (ep : Nat) : Bool :=
  if ms.src.length ≤ s then false
  else
    let c := ms.src.getD s 0
    let pc := ms.pat.getD p 0
    if pc = 46 then true  -- '.'
    else if pc = 37 then match_class c (ms.pat.getD (p+1) 0)  -- '%'
    else if pc = 91 then matchbracketclass ms.pat c p (ep - 1)  -- '['
    else decide (pc = c)

/-- The balance-tracking loop of matchbalance (`while (++s < ms->src_end)`). -/
def mbLoop (src : Bytes) (b e : Nat) (s : Nat) (cont : Nat) : Option Nat :=
  if h : s + 1 < src.length then
    let s1 := s + 1
    let c := src.getD s1 0
    if c = e then (if cont = 1 then some (s1 + 1) else mbLoop src b e s1 (cont - 1))
    else if c = b then mbLoop src b e s1 (cont + 1)
    else mbLoop src b e s1 cont
  else none
termination_by src.length - s
decreasing_by
  all_goals omega

/-- matchbalance: `p` is the index of the open byte (two past the "%b"). -/
def matchbalance (ms : MState) (s p : Nat) : Except String (Option Nat) :=
  if ms.pat.length ≤ p + 1 then
    .error "malformed pattern (missing arguments to percent-b)"
  else if ms.src.getD s 0 ≠ ms.pat.getD p 0 then .ok none
  else .ok (mbLoop ms.src (ms.pat.getD p 0) (ms.pat.getD (p+1) 0) s 1)

/-- check_capture: `l` is the raw digit byte; `l -= '1'` may go negative. -/
def check_capture (ms : MState) (l : Int) : Except String Nat :=
  let l1 := l - 49
  if l1 < 0 ∨ (ms.capture.length : Int) ≤ l1 ∨
      (ms.capture.getD l1.toNat default).len = CAP_UNFINISHED then
    .error "invalid capture index"
  else .ok l1.toNat

/-- The downward scan of capture_to_close (`for (level--; level >= 0; ...)`). -/
def ctcGo (caps : List Cap) : Nat → Option Nat
  | 0 => none
  | l+1 => if (caps.getD l default).len = CAP_UNFINISHED then some l else ctcGo caps l

/-- capture_to_close: index of the most recently opened unfinished capture. -/
def capture_to_close (ms : MState) : Except String Nat :=
  match ctcGo ms.capture ms.capture.length with
  | some l => .ok l
  | none => .error "invalid pattern capture"

/-- match_capture: back-reference.  In C the length is compared as size_t,
so the CAP_POSITION value -2 wraps to a huge number and the bounds test
fails: a back-reference to a position capture never matches. -/
def match_capture (ms : MState) (s : Nat) (l : Int) : Except String (Option Nat) :=
  match check_capture ms l with
  | .error e => .error e
  | .ok l1 =>
    let len := (ms.capture.getD l1 default).len
    let ini := (ms.capture.getD l1 default).init
    if 0 ≤ len ∧ len ≤ (ms.src.length : Int) - (s : Int) ∧
        (ms.src.drop ini).take len.toNat = (ms.src.drop s).take len.toNat then
      .ok (some (s + len.toNat))
    else .ok none

/-- Result of the recursive matcher: `fail` = NULL (with the threaded
state), `succ` = a subject index (match end), `err` = janet_panic,
`out` = artificial fuel exhaustion (no C counterpart; unreachable for
sufficient fuel). -/
inductive MRes where
  | out : MRes
  | err : String → MRes
  | fail : MState → MRes
  | succ : Nat → MState → MRes
deriving Repr, DecidableEq

/-- The count phase of max_expand (`while (singlematch(ms, s+i, p, ep)) i++`). -/
def maxCount (ms : MState) (s p ep : Nat) (i : Nat) : Nat :=
  if h : singlematch ms (s+i) p ep = true then maxCount ms s p ep (i+1) else i
termination_by ms.src.length - (s + i)
decreasing_by
  have hlt : s + i < ms.src.length := by
    by_contra hge
    rw [singlematch, if_pos (by omega)] at h
    exact Bool.false_ne_true h
  omega

mutual

/-- match: depth guard, then the dispatching body; the single exit
restores the depth budget (`ms->matchdepth++`). -/
def matchM : Nat → MState → Nat → Nat → MRes
  | 0, _, _, _ => .out
  | fuel+1, ms, s, p =>
    if ms.matchdepth = 0 then .err "pattern too complex"
    else
      match matchBody fuel { ms with matchdepth := ms.matchdepth - 1 } s p with
      | .fail ms' => .fail { ms' with matchdepth := ms'.matchdepth + 1 }
      | .succ r ms' => .succ r { ms' with matchdepth := ms'.matchdepth + 1 }
      | other => other

/-- The body of match: the `init:` goto loop over pattern tokens. -/
def matchBody : Nat → MState → Nat → Nat → MRes
  | 0, _, _, _ => .out
  | fuel+1, ms, s, p =>
    if p = ms.pat.length then .succ s ms  -- end of pattern
    else if ms.pat.getD p 0 = 40 then  -- '(' start capture
      if ms.pat.getD (p+1) 0 = 41 then startCaptureM fuel ms s (p+2) CAP_POSITION
      else startCaptureM fuel ms s (p+1) CAP_UNFINISHED
    else if ms.pat.getD p 0 = 41 then  -- ')' end capture
      endCaptureM fuel ms s (p+1)
    else if ms.pat.getD p 0 = 36 then  -- '$'
      if p + 1 ≠ ms.pat.length then matchDefault fuel ms s p
      else if s = ms.src.length then .succ s ms else .fail ms
    else if ms.pat.getD p 0 = 37 ∧ ms.pat.getD (p+1) 0 = 98 then  -- "%b"
      match matchbalance ms s (p+2) with
      | .error e => .err e
      | .ok none => .fail ms
      | .ok (some s') => matchBody fuel ms s' (p+4)
    else if ms.pat.getD p 0 = 37 ∧ ms.pat.getD (p+1) 0 = 102 then  -- "%f"
      if ms.pat.getD (p+2) 0 ≠ 91 then
        .err "missing bracket after percent-f in pattern"
      else
        match classend ms.pat (p+2) with
        | .error e => .err e
        | .ok ep =>
          let previous := if s = 0 then 0 else ms.src.getD (s-1) 0
          if ¬ matchbracketclass ms.pat previous (p+2) (ep-1) = true ∧
             matchbracketclass ms.pat (ms.src.getD s 0) (p+2) (ep-1) = true then
            matchBody fuel ms s ep
          else .fail ms
    else if ms.pat.getD p 0 = 37 ∧
        (48 ≤ ms.pat.getD (p+1) 0 ∧ ms.pat.getD (p+1) 0 ≤ 57) then  -- "%0".."%9"
      match match_capture ms s (ms.pat.getD (p+1) 0) with
      | .error e => .err e
      | .ok none => .fail ms
      | .ok (some s') => matchBody fuel ms s' (p+2)
    else matchDefault fuel ms s p

/-- The `dflt:` label of match: a single class with an optional
quantifier suffix. -/
def matchDefault : Nat → MState → Nat → Nat → MRes
  | 0, _, _, _ => .out
  | fuel+1, ms, s, p =>
    match classend ms.pat p with
    | .error e => .err e
    | .ok ep =>
      if ¬ singlematch ms s p ep = true then
        if ms.pat.getD ep 0 = 42 ∨ ms.pat.getD ep 0 = 63 ∨ ms.pat.getD ep 0 = 45 then
          matchBody fuel ms s (ep+1)  -- '*', '?', '-' accept the empty run
        else .fail ms  -- '+' or no suffix
      else if ms.pat.getD ep 0 = 63 then  -- '?'
        match matchM fuel ms (s+1) (ep+1) with
        | .fail ms' => matchBody fuel ms' s (ep+1)
        | other => other
      else if ms.pat.getD ep 0 = 43 then  -- '+'
        maxExpandLoop fuel ms (s+1) ep (maxCount ms (s+1) p ep 0)
      else if ms.pat.getD ep 0 = 42 then  -- '*'
        maxExpandLoop fuel ms s ep (maxCount ms s p ep 0)
      else if ms.pat.getD ep 0 = 45 then  -- '-'
        minExpandM fuel ms s p ep
      else matchBody fuel ms (s+1) ep  -- no suffix

/-- The retry loop of max_expand (`while (i >= 0) { ...; i--; }`). -/
def maxExpandLoop : Nat → MState → Nat → Nat → Nat → MRes
  | 0, _, _, _, _ => .out
  | fuel+1, ms, s, ep, i =>
    match matchM fuel ms (s+i) (ep+1) with
    | .fail ms' => if i = 0 then .fail ms' else maxExpandLoop fuel ms' s ep (i-1)
    | other => other

/-- min_expand: try the continuation, else consume one more instance. -/
def minExpandM : Nat → MState → Nat → Nat → Nat → MRes
  | 0, _, _, _, _ => .out
  | fuel+1, ms, s, p, ep =>
    match matchM fuel ms s (ep+1) with
    | .fail ms' =>
      if singlematch ms' s p ep then minExpandM fuel ms' (s+1) p ep
      else .fail ms'
    | other => other

/-- start_capture: push an unfinished (or position) capture, try the
continuation, pop the capture on failure. -/
def startCaptureM : Nat → MState → Nat → Nat → Int → MRes
  | 0, _, _, _, _ => .out
  | fuel+1, ms, s, p, what =>
    if MAXCAPTURES ≤ ms.capture.length then .err "too many captures"
    else
      match matchM fuel { ms with capture := ms.capture ++ [⟨s, what⟩] } s p with
      | .fail ms' => .fail { ms' with capture := ms'.capture.dropLast }
      | other => other

/-- end_capture: close the most recently opened unfinished capture, try
the continuation, revert it to unfinished on failure. -/
def endCaptureM : Nat → MState → Nat → Nat → MRes
  | 0, _, _, _ => .out
  | fuel+1, ms, s, p =>
    match capture_to_close ms with
    | .error e => .err e
    | .ok l =>
      let c0 := ms.capture.getD l default
      match matchM fuel
          { ms with capture := ms.capture.set l ⟨c0.init, (s : Int) - (c0.init : Int)⟩ } s p with
      | .fail ms' =>
        .fail { ms' with capture :=
          ms'.capture.set l ⟨(ms'.capture.getD l default).init, CAP_UNFINISHED⟩ }
      | other => other

end

/-- A reported capture: a byte string or (for position captures) a
1-based offset. -/
inductive CapOut where
  | str : Bytes → CapOut
  | num : Nat → CapOut
deriving Repr, DecidableEq

/-- push_onecapture (`s`/`e` are the whole-match bounds used when the
pattern has no explicit captures). -/
def push_onecapture (ms : MState) (i : Nat) (s e : Nat) : Except String CapOut :=
  if ms.capture.length ≤ i then
    if i = 0 then .ok (.str ((ms.src.drop s).take (e - s)))
    else .error "invalid capture index"
  else
    let c := ms.capture.getD i default
    if c.len = CAP_UNFINISHED then .error "unfinished capture"
    else if c.len = CAP_POSITION then .ok (.num (c.init + 1))
    else .ok (.str ((ms.src.drop c.init).take c.len.toNat))

/-- push_captures, for a successful attempt (the result pointer is
non-NULL at the single call site). -/
def push_captures (ms : MState) (s e : Nat) : Except String (List CapOut) :=
  let nlevels := if ms.capture.length = 0 then 1 else ms.capture.length
  (List.range nlevels).mapM (fun i => push_onecapture ms i s e)

/-- prepstate: fresh match state with a full depth budget. -/
def prepstate (src pat : Bytes) : MState :=
  { src := src, pat := pat, matchdepth := MAXCCALLS, capture := [] }

/-- reprepstate: reset the capture count and check that the previous
attempt restored the depth budget. -/
def reprepstate (ms : MState) : Except String MState :=
  if ms.matchdepth ≠ MAXCCALLS then .error "matchdepth error"
  else .ok { ms with capture := [] }

/-- posrelatI: 1-based position normalization of cfun_str_match's start
argument (the negative case is computed in size_t but is exact because
`pos >= -len`). -/
def posrelatI (pos : Int) (len : Nat) : Nat :=
  if 0 < pos then pos.toNat
  else if pos = 0 then 1
  else if pos < -(len : Int) then 1
  else ((len : Int) + pos + 1).toNat

/-- Result of string/match: nil, a capture array, a pattern error, or
artificial fuel exhaustion. -/
inductive TopRes where
  | out : TopRes
  | err : String → TopRes
  | nil : TopRes
  | caps : List CapOut → TopRes
deriving Repr, DecidableEq

/-- The `do { ... } while (s1++ < ms.src_end && !anchor)` loop of
cfun_str_match; `iters` counts the remaining iterations (at least
`src.length + 1 - s1` at entry, so it never reaches 0). -/
def strMatchGo (fuel : Nat) (anchor : Bool) : MState → Nat → Nat → TopRes
  | _, _, 0 => .nil
  | ms, s1, iters+1 =>
    match reprepstate ms with
    | .error e => .err e
    | .ok ms0 =>
      match matchM fuel ms0 s1 0 with
      | .out => .out
      | .err e => .err e
      | .succ res ms' =>
        match push_captures ms' s1 res with
        | .error e => .err e
        | .ok caps => .caps caps
      | .fail ms' =>
        if s1 < ms'.src.length ∧ anchor = false then strMatchGo fuel anchor ms' (s1+1) iters
        else .nil

/-- cfun_str_match (the fuel is threaded to the recursive matcher). -/
def cfun_str_match (src pat : Bytes) (startArg : Option Int) (fuel : Nat) : TopRes :=
  let init := match startArg with
    | some a => posrelatI a src.length - 1
    | none => 0
  if src.length < init then .nil
  else
    let anchor := pat.getD 0 0 = 94  -- '^'
    let p := if anchor then pat.drop 1 else pat
    strMatchGo fuel anchor (prepstate src p) init (src.length + 1 - init)

/-! ### The restoration invariant of the recursive matcher -/

/-- What every probe guarantees: a failed probe returns with the state
exactly as it was (captures, capture count, depth budget); a successful
probe restores the depth budget and never touches the buffers. -/
def Restores (ms : MState) : MRes → Prop
  | .fail ms' => ms' = ms
  | .succ _ ms' => ms'.matchdepth = ms.matchdepth ∧ ms'.src = ms.src ∧ ms'.pat = ms.pat
  | _ => True

lemma restores_err (ms : MState) (e : String) : Restores ms (.err e) := trivial

lemma mstate_depth_restore (ms : MState) (h : ¬ ms.matchdepth = 0) :
    ({ ms with matchdepth := ms.matchdepth - 1 + 1 }) = ms := by
  cases ms with
  | mk src pat d cap =>
    simp only [MState.mk.injEq, and_true, true_and]
    simp only at h
    omega

lemma set_getD_self (caps : List Cap) : ∀ (l : Nat), l < caps.length →
    caps.set l (caps.getD l default) = caps := by
  induction caps with
  | nil => intro l h; simp at h
  | cons c rest ih =>
    intro l h
    cases l with
    | zero => simp [List.getD]
    | succ l =>
      simp only [List.set, List.getD_cons_succ, List.cons.injEq, true_and]
      exact ih l (by simpa using h)

lemma getD_set_self (caps : List Cap) (l : Nat) (v : Cap) (h : l < caps.length) :
    (caps.set l v).getD l default = v := by
  rw [List.getD_eq_getElem?_getD, List.getElem?_set_self (by omega)]
  rfl

/-- The scan of capture_to_close finds the greatest index below `n`
holding an unfinished capture. -/
lemma ctcGo_spec (caps : List Cap) : ∀ n,
    (∀ l, ctcGo caps n = some l →
       l < n ∧ (caps.getD l default).len = CAP_UNFINISHED ∧
       ∀ l', l < l' → l' < n → (caps.getD l' default).len ≠ CAP_UNFINISHED) ∧
    (ctcGo caps n = none → ∀ l, l < n → (caps.getD l default).len ≠ CAP_UNFINISHED) := by
  intro n
  induction n with
  | zero =>
    refine ⟨by intro l h; simp [ctcGo] at h, ?_⟩
    intro _ l h
    omega
  | succ n ih =>
    constructor
    · intro l h
      rw [ctcGo] at h
      split at h
      · injection h with h
        subst h
        refine ⟨by omega, by assumption, ?_⟩
        intro l' h1 h2
        omega
      · obtain ⟨h1, h2, h3⟩ := ih.1 l h
        refine ⟨by omega, h2, ?_⟩
        intro l' hl1 hl2
        rcases Nat.lt_or_ge l' n with hlt | hge
        · exact h3 l' hl1 hlt
        · have : l' = n := by omega
          subst this
          assumption
    · intro h l hl
      rw [ctcGo] at h
      split at h
      · exact absurd h (by simp)
      · rcases Nat.lt_or_ge l n with hlt | hge
        · exact ih.2 h l hlt
        · have : l = n := by omega
          subst this
          assumption

/-- capture_to_close returns the index of the most recently opened
still-unfinished capture. -/
lemma capture_to_close_spec (ms : MState) (l : Nat) (h : capture_to_close ms = .ok l) :
    l < ms.capture.length ∧ (ms.capture.getD l default).len = CAP_UNFINISHED ∧
    ∀ l', l < l' → l' < ms.capture.length →
      (ms.capture.getD l' default).len ≠ CAP_UNFINISHED := by
  unfold capture_to_close at h
  split at h
  · injection h with h
    subst h
    exact (ctcGo_spec ms.capture ms.capture.length).1 _ (by assumption)
  · exact absurd h (by simp)

/-- Reverting a closed capture restores the original capture list. -/
lemma set_revert (caps : List Cap) (l : Nat) (hl : l < caps.length)
    (hunf : (caps.getD l default).len = CAP_UNFINISHED) (len' : Int) :
    (caps.set l ⟨(caps.getD l default).init, len'⟩).set l
      ⟨((caps.set l ⟨(caps.getD l default).init, len'⟩).getD l default).init, CAP_UNFINISHED⟩ =
      caps := by
  rw [getD_set_self _ _ _ hl, List.set_set]
  have h2 : (⟨(caps.getD l default).init, CAP_UNFINISHED⟩ : Cap) = caps.getD l default := by
    rw [← hunf]
  rw [h2, set_getD_self _ _ hl]

/-- The master restoration lemma for the whole mutually recursive family. -/
lemma restores_all : ∀ fuel : Nat,
    (∀ ms s p, Restores ms (matchM fuel ms s p)) ∧
    (∀ ms s p, Restores ms (matchBody fuel ms s p)) ∧
    (∀ ms s p, Restores ms (matchDefault fuel ms s p)) ∧
    (∀ ms s ep i, Restores ms (maxExpandLoop fuel ms s ep i)) ∧
    (∀ ms s p ep, Restores ms (minExpandM fuel ms s p ep)) ∧
    (∀ ms s p what, Restores ms (startCaptureM fuel ms s p what)) ∧
    (∀ ms s p, Restores ms (endCaptureM fuel ms s p)) := by
  intro fuel
  induction fuel with
  | zero =>
    refine ⟨?_, ?_, ?_, ?_, ?_, ?_, ?_⟩ <;> intros <;>
      simp [matchM, matchBody, matchDefault, maxExpandLoop, minExpandM,
        startCaptureM, endCaptureM, Restores]
  | succ fuel ih =>
    obtain ⟨ihM, ihB, ihD, ihMax, ihMin, ihSC, ihEC⟩ := ih
    refine ⟨?_, ?_, ?_, ?_, ?_, ?_, ?_⟩
    · -- matchM: decrement the budget, run the body, restore the budget
      intro ms s p
      rw [matchM]
      by_cases h0 : ms.matchdepth = 0
      · rw [if_pos h0]; trivial
      · rw [if_neg h0]
        have hib := ihB { ms with matchdepth := ms.matchdepth - 1 } s p
        rcases hb : matchBody fuel { ms with matchdepth := ms.matchdepth - 1 } s p with
          _ | e | msb | ⟨r, msb⟩ <;> rw [hb] at hib <;> dsimp only
        · trivial
        · trivial
        · simp only [Restores] at hib ⊢
          rw [hib]
          exact mstate_depth_restore ms h0
        · simp only [Restores] at hib ⊢
          obtain ⟨hd, hs, hp2⟩ := hib
          exact ⟨by omega, hs, hp2⟩
    · -- matchBody: dispatch on the pattern token
      intro ms s p
      rw [matchBody]
      split
      · simp [Restores]
      split
      · split
        · exact ihSC _ _ _ _
        · exact ihSC _ _ _ _
      split
      · exact ihEC _ _ _
      split
      · split
        · exact ihD _ _ _
        · split
          · simp [Restores]
          · simp [Restores]
      split
      · rcases hmb : matchbalance ms s (p+2) with e | r
        · simp [Restores]
        · cases r with
          | none => simp [Restores]
          | some s' =>
            simp only
            exact ihB _ _ _
      split
      · split
        · trivial
        · rcases hce : classend ms.pat (p+2) with e | ep
          · simp [Restores]
          · dsimp only
            split <;> split <;>
              first
                | exact ihB _ _ _
                | exact rfl
      split
      · rcases hmc : match_capture ms s (ms.pat.getD (p+1) 0) with e | r
        · simp [Restores]
        · cases r with
          | none => simp [Restores]
          | some s' =>
            simp only
            exact ihB _ _ _
      · exact ihD _ _ _
    · -- matchDefault: class plus optional suffix
      intro ms s p
      rw [matchDefault]
      rcases hce : classend ms.pat p with e | ep
      · trivial
      simp only
      split
      · split
        · exact ihB _ _ _
        · simp [Restores]
      split
      · -- '?': nested probe, then the empty alternative
        have hm := ihM ms (s+1) (ep+1)
        rcases hmm : matchM fuel ms (s+1) (ep+1) with _ | e | ms' | ⟨r, ms'⟩ <;>
          rw [hmm] at hm <;> dsimp only
        · trivial
        · trivial
        · simp only [Restores] at hm
          subst hm
          exact ihB _ _ _
        · exact hm
      split
      · exact ihMax _ _ _ _
      split
      · exact ihMax _ _ _ _
      split
      · exact ihMin _ _ _ _
      · exact ihB _ _ _
    · -- maxExpandLoop: shrink the greedy run on failure
      intro ms s ep i
      rw [maxExpandLoop]
      have hm := ihM ms (s+i) (ep+1)
      rcases hmm : matchM fuel ms (s+i) (ep+1) with _ | e | ms' | ⟨r, ms'⟩ <;>
        rw [hmm] at hm <;> dsimp only
      · trivial
      · trivial
      · simp only [Restores] at hm
        subst hm
        split
        · simp [Restores]
        · exact ihMax _ _ _ _
      · exact hm
    · -- minExpandM: try the continuation, else consume one more byte
      intro ms s p ep
      rw [minExpandM]
      have hm := ihM ms s (ep+1)
      rcases hmm : matchM fuel ms s (ep+1) with _ | e | ms' | ⟨r, ms'⟩ <;>
        rw [hmm] at hm <;> dsimp only
      · trivial
      · trivial
      · simp only [Restores] at hm
        subst hm
        split
        · exact ihMin _ _ _ _
        · simp [Restores]
      · exact hm
    · -- startCaptureM: pop the speculative capture on failure
      intro ms s p what
      rw [startCaptureM]
      split
      · trivial
      have hm := ihM { ms with capture := ms.capture ++ [⟨s, what⟩] } s p
      rcases hmm : matchM fuel { ms with capture := ms.capture ++ [⟨s, what⟩] } s p with
        _ | e | ms' | ⟨r, ms'⟩ <;> rw [hmm] at hm <;> dsimp only
      · trivial
      · trivial
      · simp only [Restores] at hm ⊢
        rw [hm]
        simp only [List.dropLast_concat]
      · simp only [Restores] at hm ⊢
        exact hm
    · -- endCaptureM: revert the closed capture to unfinished on failure
      intro ms s p
      rw [endCaptureM]
      rcases hcc : capture_to_close ms with e | l
      · trivial
      dsimp only
      obtain ⟨hl, hunf, -⟩ := capture_to_close_spec ms l hcc
      have hm := ihM { ms with capture := ms.capture.set l ⟨(ms.capture.getD l default).init, (s : Int) - ((ms.capture.getD l default).init : Int)⟩ } s p
      rcases hmm : matchM fuel { ms with capture := ms.capture.set l ⟨(ms.capture.getD l default).init, (s : Int) - ((ms.capture.getD l default).init : Int)⟩ } s p with
        _ | e | ms' | ⟨r, ms'⟩ <;> rw [hmm] at hm <;> dsimp only
      · trivial
      · trivial
      · simp only [Restores] at hm ⊢
        rw [hm]
        dsimp only
        rw [set_revert ms.capture l hl hunf]
      · simp only [Restores] at hm ⊢
        exact hm

/-- C4 — captures are speculative: a failed probe of the recursive
matcher returns with the capture list (hence the capture count) and the
whole state equal to their pre-call values, and the capture closed by ')'
(capture_to_close) is the most recently opened still-unfinished one. -/
theorem capture_speculation_invariant :
    (∀ (fuel : Nat) (ms : MState) (s p : Nat) (ms' : MState),
       matchM fuel ms s p = .fail ms' →
       ms'.capture = ms.capture ∧ ms'.capture.length = ms.capture.length ∧ ms' = ms) ∧
    (∀ (ms : MState) (l : Nat), capture_to_close ms = .ok l →
       l < ms.capture.length ∧ (ms.capture.getD l default).len = CAP_UNFINISHED ∧
       ∀ l', l < l' → l' < ms.capture.length →
         (ms.capture.getD l' default).len ≠ CAP_UNFINISHED) := by
  constructor
  · intro fuel ms s p ms' h
    have := (restores_all fuel).1 ms s p
    rw [h] at this
    simp only [Restores] at this
    subst this
    exact ⟨rfl, rfl, rfl⟩
  · exact capture_to_close_spec

theorem capture_speculation_invariant_witness :
    (matchM 5 { src := [98], pat := [97], matchdepth := 200, capture := [] } 0 0 =
       .fail { src := [98], pat := [97], matchdepth := 200, capture := [] }) ∧
    ({ src := [98], pat := [97], matchdepth := 200, capture := [] } : MState).capture =
      ({ src := [98], pat := [97], matchdepth := 200, capture := [] } : MState).capture ∧
    capture_to_close { src := [], pat := [], matchdepth := 200, capture := [⟨3, CAP_UNFINISHED⟩] } = .ok 0 ∧
    0 < ({ src := [], pat := [], matchdepth := 200, capture := [⟨3, CAP_UNFINISHED⟩] } : MState).capture.length := by
  have h1 : matchM 5 { src := [98], pat := [97], matchdepth := 200, capture := [] } 0 0 =
      .fail { src := [98], pat := [97], matchdepth := 200, capture := [] } := by
    simp [matchM, matchBody, matchDefault, classend, singlematch, match_class, class_res,
      tolowerB]
  have h2 : capture_to_close
      { src := [], pat := [], matchdepth := 200, capture := [⟨3, CAP_UNFINISHED⟩] } = .ok 0 := by
    simp [capture_to_close, ctcGo]
  refine ⟨h1, ?_, h2, ?_⟩
  · exact (capture_speculation_invariant.1 5 _ 0 0 _ h1).1
  · exact (capture_speculation_invariant.2 _ 0 h2).1

/-- C5 — the depth budget (200) is decremented on entry to the recursive
matcher and restored before returning, on success and on failure;
exhausting it panics with "pattern too complex"; reprepstate checks the
budget is back at its initial value before each new top-level attempt and
panics with "matchdepth error" otherwise. -/
theorem depth_budget_invariant :
    MAXCCALLS = 200 ∧
    (∀ (fuel : Nat) (ms : MState) (s p r : Nat) (ms' : MState),
       matchM fuel ms s p = .succ r ms' → ms'.matchdepth = ms.matchdepth) ∧
    (∀ (fuel : Nat) (ms : MState) (s p : Nat) (ms' : MState),
       matchM fuel ms s p = .fail ms' → ms'.matchdepth = ms.matchdepth) ∧
    (∀ (fuel : Nat) (ms : MState) (s p : Nat), ms.matchdepth = 0 →
       matchM (fuel+1) ms s p = .err "pattern too complex") ∧
    (∀ ms : MState, ms.matchdepth = MAXCCALLS →
       reprepstate ms = .ok { ms with capture := [] }) ∧
    (∀ ms : MState, ms.matchdepth ≠ MAXCCALLS →
       reprepstate ms = .error "matchdepth error") ∧
    (∀ src pat : Bytes, (prepstate src pat).matchdepth = MAXCCALLS) := by
  refine ⟨rfl, ?_, ?_, ?_, ?_, ?_, fun _ _ => rfl⟩
  · intro fuel ms s p r ms' h
    have := (restores_all fuel).1 ms s p
    rw [h] at this
    exact this.1
  · intro fuel ms s p ms' h
    have := (restores_all fuel).1 ms s p
    rw [h] at this
    simp only [Restores] at this
    rw [this]
  · intro fuel ms s p h
    rw [matchM, if_pos h]
  · intro ms h
    rw [reprepstate, if_neg (by simp [h])]
  · intro ms h
    rw [reprepstate, if_pos h]

theorem depth_budget_invariant_witness :
    matchM 3 { src := [], pat := [], matchdepth := 0, capture := [] } 0 0 =
      .err "pattern too complex" ∧
    reprepstate { src := [], pat := [], matchdepth := 200, capture := [] } =
      .ok { src := [], pat := [], matchdepth := 200, capture := [] } :=
  ⟨depth_budget_invariant.2.2.2.1 2 _ 0 0 rfl,
   depth_budget_invariant.2.2.2.2.1 _ rfl⟩

/-- cfun_str_match with the default start and an unanchored pattern just
runs the sliding loop from offset 0. -/
lemma cfun_str_match_unanchored (src pat : Bytes) (fuel : Nat)
    (hanchor : pat.getD 0 0 ≠ 94) :
    cfun_str_match src pat none fuel =
      strMatchGo fuel false (prepstate src pat) 0 (src.length + 1) := by
  rw [cfun_str_match]
  simp only [List.getD_eq_getElem?_getD] at hanchor
  simp [hanchor]

/-- C6 — a pattern with "%b" followed by fewer than two bytes, or "%f"
not followed by '[', makes the match attempt panic with the malformed-
pattern error (it never returns the ordinary no-match result, which would
be .fail / .nil); in particular string/match on the whole patterns "%b"
and "%f" panics for every subject. -/
theorem malformed_balance_frontier_panic :
    (∀ (fuel : Nat) (ms : MState) (s p : Nat),
       ms.matchdepth ≠ 0 → p ≠ ms.pat.length →
       ms.pat.getD p 0 = 37 → ms.pat.getD (p+1) 0 = 98 →
       ms.pat.length ≤ p + 3 →
       matchM (fuel+2) ms s p = .err "malformed pattern (missing arguments to percent-b)") ∧
    (∀ (fuel : Nat) (ms : MState) (s p : Nat),
       ms.matchdepth ≠ 0 → p ≠ ms.pat.length →
       ms.pat.getD p 0 = 37 → ms.pat.getD (p+1) 0 = 102 →
       ms.pat.getD (p+2) 0 ≠ 91 →
       matchM (fuel+2) ms s p = .err "missing bracket after percent-f in pattern") ∧
    (∀ (src : Bytes) (fuel : Nat),
       cfun_str_match src [37, 98] none (fuel+2) =
         .err "malformed pattern (missing arguments to percent-b)") ∧
    (∀ (src : Bytes) (fuel : Nat),
       cfun_str_match src [37, 102] none (fuel+2) =
         .err "missing bracket after percent-f in pattern") := by
  have hb : ∀ (fuel : Nat) (ms : MState) (s p : Nat),
      ms.matchdepth ≠ 0 → p ≠ ms.pat.length →
      ms.pat.getD p 0 = 37 → ms.pat.getD (p+1) 0 = 98 →
      ms.pat.length ≤ p + 3 →
      matchM (fuel+2) ms s p = .err "malformed pattern (missing arguments to percent-b)" := by
    intro fuel ms s p h0 hplen h37 h98 hshort
    rw [matchM, if_neg h0, matchBody]
    simp only [List.getD_eq_getElem?_getD] at h37 h98
    simp [matchbalance, h37, h98, hplen, show ms.pat.length ≤ p + 2 + 1 by omega]
  have hf : ∀ (fuel : Nat) (ms : MState) (s p : Nat),
      ms.matchdepth ≠ 0 → p ≠ ms.pat.length →
      ms.pat.getD p 0 = 37 → ms.pat.getD (p+1) 0 = 102 →
      ms.pat.getD (p+2) 0 ≠ 91 →
      matchM (fuel+2) ms s p = .err "missing bracket after percent-f in pattern" := by
    intro fuel ms s p h0 hplen h37 h102 h91
    rw [matchM, if_neg h0, matchBody]
    simp only [List.getD_eq_getElem?_getD] at h37 h102 h91
    simp [h37, h102, h91, hplen]
  refine ⟨hb, hf, ?_, ?_⟩
  · intro src fuel
    have hm := hb fuel { src := src, pat := [37, 98], matchdepth := MAXCCALLS, capture := [] }
      0 0 (by simp [MAXCCALLS]) (by simp) (by simp) (by simp) (by simp)
    rw [cfun_str_match_unanchored src [37, 98] (fuel+2) (by decide)]
    rw [strMatchGo]
    rw [reprepstate, if_neg (by simp [prepstate, MAXCCALLS])]
    simp only [prepstate]
    rw [hm]
  · intro src fuel
    have hm := hf fuel { src := src, pat := [37, 102], matchdepth := MAXCCALLS, capture := [] }
      0 0 (by simp [MAXCCALLS]) (by simp) (by simp) (by simp) (by simp)
    rw [cfun_str_match_unanchored src [37, 102] (fuel+2) (by decide)]
    rw [strMatchGo]
    rw [reprepstate, if_neg (by simp [prepstate, MAXCCALLS])]
    simp only [prepstate]
    rw [hm]

theorem malformed_balance_frontier_panic_witness :
    cfun_str_match [97, 98, 99] [37, 98] none 12 =
      .err "malformed pattern (missing arguments to percent-b)" ∧
    cfun_str_match [97, 98, 99] [37, 102] none 12 =
      .err "missing bracket after percent-f in pattern" :=
  ⟨malformed_balance_frontier_panic.2.2.1 [97, 98, 99] 10,
   malformed_balance_frontier_panic.2.2.2 [97, 98, 99] 10⟩

/-- C9 — normalization of the optional one-based start offset: 0 becomes
1; a negative -k counts from the end (len - k + 1) when k ≤ len and clips
to 1 when k > len; a normalized start past the end of the subject makes
string/match return nil immediately. -/
theorem start_offset_normalization :
    (∀ len : Nat, posrelatI 0 len = 1) ∧
    (∀ (k len : Nat), 1 ≤ k → k ≤ len → posrelatI (-(k : Int)) len = len - k + 1) ∧
    (∀ (k len : Nat), len < k → posrelatI (-(k : Int)) len = 1) ∧
    (∀ (src pat : Bytes) (a : Int) (fuel : Nat),
       src.length + 1 < posrelatI a src.length →
       cfun_str_match src pat (some a) fuel = .nil) := by
  refine ⟨?_, ?_, ?_, ?_⟩
  · intro len
    simp [posrelatI]
  · intro k len h1 h2
    unfold posrelatI
    rw [if_neg (by omega), if_neg (by omega), if_neg (by omega)]
    omega
  · intro k len h
    unfold posrelatI
    have hk : 1 ≤ k := by omega
    rw [if_neg (by omega), if_neg (by omega), if_pos (by omega)]
  · intro src pat a fuel h
    rw [cfun_str_match]
    simp only
    rw [if_pos (by omega)]

/-! ### The frontier assertion at the very start of the subject (C10) -/

/-- Scanning for ']' over a bracket set of `n+1` plain bytes (no '%' and
no ']' among them) ends just past the closing bracket. -/
lemma classendLoop_plain (pat : Bytes) : ∀ (n q : Nat),
    (∀ t, t ≤ n → pat.getD (q+t) 0 ≠ 37 ∧ pat.getD (q+t) 0 ≠ 93) →
    pat.getD (q+n+1) 0 = 93 →
    q + n + 1 < pat.length →
    classendLoop pat q = .ok (q + n + 2) := by
  intro n
  induction n with
  | zero =>
    intro q hplain hclose hlen
    rw [classendLoop]
    rw [dif_neg (by omega)]
    have h37 : ¬ (pat.getD q 0 = 37 ∧ q + 1 < pat.length) := by
      intro h
      exact (hplain 0 (le_refl _)).1 (by simpa using h.1)
    rw [if_neg h37]
    rw [if_pos (by simpa using hclose)]
  | succ n ih =>
    intro q hplain hclose hlen
    rw [classendLoop]
    rw [dif_neg (by omega)]
    have h37 : ¬ (pat.getD q 0 = 37 ∧ q + 1 < pat.length) := by
      intro h
      exact (hplain 0 (by omega)).1 (by simpa using h.1)
    rw [if_neg h37]
    have h93 : ¬ pat.getD (q+1) 0 = 93 := by
      have := (hplain 1 (by omega)).2
      simpa using this
    rw [if_neg h93]
    have := ih (q+1) (fun t ht => by
        have := hplain (t+1) (by omega)
        constructor
        · simpa [show q + 1 + t = q + (t+1) by omega] using this.1
        · simpa [show q + 1 + t = q + (t+1) by omega] using this.2)
      (by simpa [show q + 1 + n + 1 = q + (n+1) + 1 by omega] using hclose)
      (by omega)
    rw [this]
    congr 1
    omega

/-- Membership scan over a plain bracket set (no '%' and no '-' among its
bytes): true exactly when some set byte equals `c`. -/
lemma mbcLoop_plain (pat : Bytes) (c : Nat) : ∀ (n q : Nat),
    (∀ t, t < n → pat.getD (q+1+t) 0 ≠ 37 ∧ pat.getD (q+1+t) 0 ≠ 45) →
    (mbcLoop pat c (q+n+1) true q = true ↔ ∃ t, t < n ∧ pat.getD (q+1+t) 0 = c) := by
  intro n
  induction n with
  | zero =>
    intro q _
    rw [mbcLoop]
    rw [dif_neg (by omega)]
    simp
  | succ n ih =>
    intro q hplain
    rw [mbcLoop]
    rw [dif_pos (by omega)]
    have h37 : ¬ pat.getD (q+1) 0 = 37 := by
      have := (hplain 0 (by omega)).1
      simpa using this
    rw [if_neg h37]
    have hrange : ¬ (pat.getD (q+1+1) 0 = 45 ∧ q + 1 + 2 < q + (n+1) + 1) := by
      rintro ⟨h45, hlt⟩
      have hn : 1 ≤ n := by omega
      exact (hplain 1 (by omega)).2 h45
    rw [if_neg hrange]
    by_cases hc : pat.getD (q+1) 0 = c
    · rw [if_pos hc]
      constructor
      · intro _
        exact ⟨0, by omega, by simpa using hc⟩
      · intro _
        rfl
    · rw [if_neg hc]
      have := ih (q+1) (fun t ht => by
        have := hplain (t+1) (by omega)
        constructor
        · simpa [show q + 1 + 1 + t = q + 1 + (t+1) by omega] using this.1
        · simpa [show q + 1 + 1 + t = q + 1 + (t+1) by omega] using this.2)
      rw [show q + (n+1) + 1 = q + 1 + n + 1 by omega, this]
      constructor
      · rintro ⟨t, ht, he⟩
        exact ⟨t+1, by omega, by simpa [show q + 1 + (t+1) = q + 1 + 1 + t by omega] using he⟩
      · rintro ⟨t, ht, he⟩
        match t, ht, he with
        | 0, _, he => exact absurd (by simpa using he) hc
        | (t+1), ht, he =>
          exact ⟨t, by omega, by simpa [show q + 1 + 1 + t = q + 1 + (t+1) by omega] using he⟩

/-- matchbracketclass over a plain set: membership of `c`. -/
lemma matchbracketclass_plain (pat : Bytes) (c : Nat) (n q : Nat)
    (h94 : pat.getD (q+1) 0 ≠ 94)
    (hplain : ∀ t, t < n → pat.getD (q+1+t) 0 ≠ 37 ∧ pat.getD (q+1+t) 0 ≠ 45) :
    (matchbracketclass pat c q (q+n+1) = true ↔ ∃ t, t < n ∧ pat.getD (q+1+t) 0 = c) := by
  unfold matchbracketclass
  rw [if_neg h94]
  exact mbcLoop_plain pat c n q hplain

/-- The frontier pattern "%f[set]" for a nonempty set of plain literal
bytes: the body of match at subject offset 0 takes the previous byte to be
0 and succeeds (consuming no input and reaching the end of the pattern)
exactly when 0 is outside the set and the first subject byte is inside. -/
lemma matchBody_frontier_start (fuel : Nat) (ms : MState) (set : Bytes)
    (hp : ms.pat = 37 :: 102 :: 91 :: (set ++ [93]))
    (hne : set ≠ [])
    (hplain : ∀ b ∈ set, b ≠ 37 ∧ b ≠ 93 ∧ b ≠ 45 ∧ b ≠ 94) :
    matchBody (fuel + 2) ms 0 0 =
      (if 0 ∉ set ∧ ms.src.getD 0 0 ∈ set then .succ 0 ms else .fail ms) := by
  obtain ⟨m, hm⟩ : ∃ m, set.length = m + 1 := ⟨set.length - 1, by
    cases set
    · exact absurd rfl hne
    · simp⟩
  have hlen : ms.pat.length = set.length + 4 := by simp [hp]
  have hget3 : ∀ t, ms.pat.getD (3+t) 0 = (set ++ [93]).getD t 0 := by
    intro t
    rw [show 3 + t = ((t+1)+1)+1 by omega, hp]
    simp [List.getD_eq_getElem?_getD]
  have hgetElem : ∀ t, t < set.length → ms.pat.getD (3+t) 0 = set.getD t 0 := by
    intro t ht
    rw [hget3, List.getD_append _ _ _ _ ht]
  have hsetMem : ∀ t, t < set.length → set.getD t 0 ∈ set := by
    intro t ht
    rw [List.getD_eq_getElem?_getD, List.getElem?_eq_getElem ht]
    exact List.getElem_mem _
  have hgetClose : ms.pat.getD (3 + set.length) 0 = 93 := by
    rw [hget3, List.getD_append_right _ _ _ _ (le_refl _)]
    simp
  -- classend finds the end of the bracket set at the end of the pattern
  have hcl : classendLoop ms.pat 3 = .ok (set.length + 4) := by
    have := classendLoop_plain ms.pat m 3
      (fun t ht => by
        have hb := hplain _ (hsetMem t (by omega))
        rw [hgetElem t (by omega)]
        exact ⟨hb.1, hb.2.1⟩)
      (by simpa [show 3 + m + 1 = 3 + set.length by omega] using hgetClose)
      (by omega)
    rw [this]
    congr 1
    omega
  have hce : classend ms.pat 2 = .ok (set.length + 4) := by
    unfold classend
    have h2 : ms.pat.getD 2 0 = 91 := by rw [hp]; rfl
    rw [if_neg (by rw [h2]; decide), if_pos h2]
    have h3 : ms.pat.getD (2+1) 0 ≠ 94 := by
      rw [show (2:Nat)+1 = 3+0 from rfl, hgetElem 0 (by omega)]
      exact (hplain _ (hsetMem 0 (by omega))).2.2.2
    rw [if_neg h3]
    exact hcl
  -- bracket membership over the set
  have hmbc : ∀ c, (matchbracketclass ms.pat c 2 (set.length + 3) = true ↔ c ∈ set) := by
    intro c
    have := matchbracketclass_plain ms.pat c set.length 2
      (by
        rw [show (2:Nat)+1 = 3+0 from rfl, hgetElem 0 (by omega)]
        exact (hplain _ (hsetMem 0 (by omega))).2.2.2)
      (fun t ht => by
        rw [show 2 + 1 + t = 3 + t from rfl, hgetElem t ht]
        have hb := hplain _ (hsetMem t ht)
        exact ⟨hb.1, hb.2.2.1⟩)
    rw [show 2 + set.length + 1 = set.length + 3 by omega] at this
    rw [this]
    constructor
    · rintro ⟨t, ht, he⟩
      rw [show 2 + 1 + t = 3 + t from rfl, hgetElem t ht] at he
      rw [← he]
      exact hsetMem t ht
    · intro hc
      obtain ⟨i, hi, he⟩ := List.mem_iff_getElem.mp hc
      refine ⟨i, hi, ?_⟩
      rw [show 2 + 1 + i = 3 + i from rfl, hgetElem i hi,
        List.getD_eq_getElem?_getD, List.getElem?_eq_getElem hi]
      exact he
  -- now unfold the %f dispatch
  rw [matchBody]
  rw [if_neg (by omega), if_neg (by rw [hp]; simp), if_neg (by rw [hp]; simp),
    if_neg (by rw [hp]; simp), if_neg (by rw [hp]; simp), if_pos (by rw [hp]; exact ⟨rfl, rfl⟩)]
  rw [if_neg (by rw [hp]; simp)]
  rw [show (0:Nat)+2 = 2 from rfl, hce]
  dsimp only
  rw [if_pos rfl]
  rw [show set.length + 4 - 1 = set.length + 3 by omega]
  by_cases hc : 0 ∉ set ∧ ms.src.getD 0 0 ∈ set
  · rw [if_pos ⟨fun h => hc.1 ((hmbc 0).mp h), (hmbc _).mpr hc.2⟩]
    rw [matchBody]
    rw [if_pos (by omega)]
    rw [if_pos hc]
  · rw [if_neg (fun h => hc ⟨fun h0 => h.1 ((hmbc 0).mpr h0), (hmbc _).mp h.2⟩)]
    rw [if_neg hc]

/-- C10 — the frontier assertion evaluated at the very start of the
subject takes the previous byte to be 0 (NUL): on pattern "%f[set]" the
match attempt at offset 0 succeeds (matching the empty span) if and only
if byte 0 is outside the set and the first subject byte is inside it (for
an empty subject the read byte is the NUL terminator, 0). -/
theorem frontier_at_subject_start (set src : Bytes) (fuel : Nat)
    (hne : set ≠ [])
    (hplain : ∀ b ∈ set, b ≠ 37 ∧ b ≠ 93 ∧ b ≠ 45 ∧ b ≠ 94) :
    matchM (fuel + 3) (prepstate src (37 :: 102 :: 91 :: (set ++ [93]))) 0 0 =
      (if 0 ∉ set ∧ src.getD 0 0 ∈ set
       then .succ 0 (prepstate src (37 :: 102 :: 91 :: (set ++ [93])))
       else .fail (prepstate src (37 :: 102 :: 91 :: (set ++ [93])))) := by
  rw [matchM, if_neg (by simp [prepstate, MAXCCALLS])]
  simp only [prepstate]
  rw [matchBody_frontier_start fuel
    { src := src, pat := 37 :: 102 :: 91 :: (set ++ [93]),
      matchdepth := MAXCCALLS - 1, capture := [] }
    set rfl hne hplain]
  by_cases hc : 0 ∉ set ∧ src.getD 0 0 ∈ set
  · rw [if_pos (by simpa using hc), if_pos hc]
    simp [prepstate, MAXCCALLS]
  · rw [if_neg (by simpa using hc), if_neg hc]
    simp [prepstate, MAXCCALLS]

theorem frontier_at_subject_start_witness :
    (([97] : Bytes) ≠ []) ∧
    matchM (10 + 3) (prepstate [97, 98] (37 :: 102 :: 91 :: ([97] ++ [93]))) 0 0 =
      .succ 0 (prepstate [97, 98] (37 :: 102 :: 91 :: ([97] ++ [93]))) := by
  refine ⟨by decide, ?_⟩
  rw [frontier_at_subject_start [97] [97, 98] 10 (by decide) (by decide)]
  rw [if_pos (by decide)]

/-! ### The sliding loop of cfun_str_match (C8) -/

/-- An anchored pattern tries only the given start offset: the loop body
runs once and never recurses. -/
lemma strMatchGo_anchored (fuel : Nat) (ms : MState) (s1 iters : Nat) :
    strMatchGo fuel true ms s1 (iters+1) =
      (match reprepstate ms with
       | .error e => .err e
       | .ok ms0 =>
         match matchM fuel ms0 s1 0 with
         | .out => .out
         | .err e => .err e
         | .succ res ms' =>
           (match push_captures ms' s1 res with
            | .error e => .err e
            | .ok caps => .caps caps)
         | .fail _ => .nil) := by
  rw [strMatchGo]
  rcases reprepstate ms with e | ms0
  · rfl
  dsimp only
  rcases matchM fuel ms0 s1 0 with _ | e | ms' | ⟨r, ms'⟩ <;> simp

/-- reprepstate leaves prepstate unchanged. -/
lemma reprepstate_prepstate (src p : Bytes) :
    reprepstate (prepstate src p) = .ok (prepstate src p) := by
  simp [reprepstate, prepstate, MAXCCALLS]

/-- The unanchored loop over a fresh state: nil means every attempt in
`[s1, srclen]` failed; a capture result comes from the first succeeding
offset; and if every attempt fails the loop returns nil. -/
lemma strMatchGo_unanchored_spec (src p : Bytes) (fuel : Nat) :
    ∀ (iters s1 : Nat),
    s1 + iters = src.length + 1 →
    ((strMatchGo fuel false (prepstate src p) s1 iters = .nil →
       ∀ o, s1 ≤ o → o ≤ src.length →
         ∃ ms', matchM fuel (prepstate src p) o 0 = .fail ms') ∧
     (∀ caps, strMatchGo fuel false (prepstate src p) s1 iters = .caps caps →
       ∃ o r ms', s1 ≤ o ∧ o ≤ src.length ∧
         matchM fuel (prepstate src p) o 0 = .succ r ms' ∧
         (∀ o', s1 ≤ o' → o' < o →
            ∃ ms'', matchM fuel (prepstate src p) o' 0 = .fail ms'') ∧
         push_captures ms' o r = .ok caps) ∧
     ((∀ o, s1 ≤ o → o ≤ src.length →
         ∃ ms', matchM fuel (prepstate src p) o 0 = .fail ms') →
       strMatchGo fuel false (prepstate src p) s1 iters = .nil)) := by
  intro iters
  induction iters with
  | zero =>
    intro s1 hs1
    refine ⟨?_, ?_, ?_⟩
    · intro _ o h1 h2
      omega
    · intro caps h
      simp [strMatchGo] at h
    · intro _
      rfl
  | succ iters ih =>
    intro s1 hs1
    rw [strMatchGo, reprepstate_prepstate]
    dsimp only
    rcases hres : matchM fuel (prepstate src p) s1 0 with _ | e | ms' | ⟨r, ms'⟩ <;> dsimp only
    · -- out
      refine ⟨by intro h; exact absurd h (by simp), by intro caps h; exact absurd h (by simp), ?_⟩
      intro hall
      obtain ⟨ms', h⟩ := hall s1 (le_refl _) (by omega)
      rw [hres] at h
      exact absurd h (by simp)
    · -- err
      refine ⟨by intro h; exact absurd h (by simp), by intro caps h; exact absurd h (by simp), ?_⟩
      intro hall
      obtain ⟨ms', h⟩ := hall s1 (le_refl _) (by omega)
      rw [hres] at h
      exact absurd h (by simp)
    · -- fail: the state is fully restored; slide or stop
      have hrest := (restores_all fuel).1 (prepstate src p) s1 0
      rw [hres] at hrest
      simp only [Restores] at hrest
      subst hrest
      by_cases hlt : s1 < src.length
      · rw [if_pos (by simp [prepstate, hlt])]
        obtain ⟨ih1, ih2, ih3⟩ := ih (s1+1) (by omega)
        refine ⟨?_, ?_, ?_⟩
        · intro h o h1 h2
          rcases Nat.eq_or_lt_of_le h1 with he | hlt2
          · exact ⟨_, by rw [he] at hres; exact hres⟩
          · exact ih1 h o (by omega) h2
        · intro caps h
          obtain ⟨o, r, ms', ho1, ho2, ho3, ho4, ho5⟩ := ih2 caps h
          refine ⟨o, r, ms', by omega, ho2, ho3, ?_, ho5⟩
          intro o' h1 h2
          rcases Nat.eq_or_lt_of_le h1 with he | hlt2
          · exact ⟨_, by rw [he] at hres; exact hres⟩
          · exact ho4 o' (by omega) h2
        · intro hall
          exact ih3 (fun o h1 h2 => hall o (by omega) h2)
      · rw [if_neg (by simp [prepstate]; omega)]
        have hs1' : s1 = src.length := by omega
        refine ⟨?_, by intro caps h; exact absurd h (by simp), fun _ => rfl⟩
        intro _ o h1 h2
        have : o = s1 := by omega
        subst this
        exact ⟨_, hres⟩
    · -- succ: report the captures of the first success
      rcases hpc : push_captures ms' s1 r with e | caps0 <;> dsimp only
      · refine ⟨by intro h; exact absurd h (by simp), by intro caps h; exact absurd h (by simp), ?_⟩
        intro hall
        obtain ⟨ms'', h⟩ := hall s1 (le_refl _) (by omega)
        rw [hres] at h
        exact absurd h (by simp)
      · refine ⟨by intro h; exact absurd h (by simp), ?_, ?_⟩
        · intro caps h
          have : caps0 = caps := by
            have := h
            simp at this
            exact this
          subst this
          exact ⟨s1, r, ms', le_refl _, by omega, hres, by intro o' h1 h2; omega, hpc⟩
        · intro hall
          obtain ⟨ms'', h⟩ := hall s1 (le_refl _) (by omega)
          rw [hres] at h
          exact absurd h (by simp)

/-- cfun_str_match with the default start and an anchored pattern. -/
lemma cfun_str_match_anchored (src pat : Bytes) (fuel : Nat)
    (hanchor : pat.getD 0 0 = 94) :
    cfun_str_match src pat none fuel =
      strMatchGo fuel true (prepstate src (pat.drop 1)) 0 (src.length + 1) := by
  rw [cfun_str_match]
  simp only [List.getD_eq_getElem?_getD] at hanchor
  simp [hanchor]

/-- C8 — string/match slides the start offset forward, trying every
offset from the start through the position just past the last byte, until
an attempt succeeds; nil is returned exactly when every attempt fails;
a pattern beginning with '^' tries only the given start offset. -/
theorem match_slides_start_offsets (src pat : Bytes) (fuel : Nat) :
    (pat.getD 0 0 ≠ 94 →
      ((cfun_str_match src pat none fuel = .nil →
         ∀ o, o ≤ src.length →
           ∃ ms', matchM fuel (prepstate src pat) o 0 = .fail ms') ∧
       (∀ caps, cfun_str_match src pat none fuel = .caps caps →
         ∃ o r ms', o ≤ src.length ∧
           matchM fuel (prepstate src pat) o 0 = .succ r ms' ∧
           (∀ o', o' < o → ∃ ms'', matchM fuel (prepstate src pat) o' 0 = .fail ms'') ∧
           push_captures ms' o r = .ok caps) ∧
       ((∀ o, o ≤ src.length →
           ∃ ms', matchM fuel (prepstate src pat) o 0 = .fail ms') →
         cfun_str_match src pat none fuel = .nil))) ∧
    (pat.getD 0 0 = 94 →
      cfun_str_match src pat none fuel =
        (match matchM fuel (prepstate src (pat.drop 1)) 0 0 with
         | .out => .out
         | .err e => .err e
         | .succ res ms' =>
           (match push_captures ms' 0 res with
            | .error e => .err e
            | .ok caps => .caps caps)
         | .fail _ => .nil)) := by
  constructor
  · intro hanchor
    rw [cfun_str_match_unanchored src pat fuel hanchor]
    obtain ⟨h1, h2, h3⟩ := strMatchGo_unanchored_spec src pat fuel (src.length + 1) 0 (by omega)
    refine ⟨?_, ?_, ?_⟩
    · intro h o ho
      exact h1 h o (by omega) ho
    · intro caps h
      obtain ⟨o, r, ms', _, ho2, ho3, ho4, ho5⟩ := h2 caps h
      exact ⟨o, r, ms', ho2, ho3, fun o' ho' => ho4 o' (by omega) ho', ho5⟩
    · intro hall
      exact h3 (fun o _ h2 => hall o h2)
  · intro hanchor
    rw [cfun_str_match_anchored src pat fuel hanchor]
    rw [strMatchGo_anchored, reprepstate_prepstate]

theorem match_slides_start_offsets_witness :
    (([98] : Bytes).getD 0 0 ≠ 94) ∧
    cfun_str_match [97] [98] none 3 = .nil := by
  refine ⟨by decide, ?_⟩
  apply ((match_slides_start_offsets [97] [98] 3).1 (by decide)).2.2
  intro o ho
  have ho' : o ≤ 1 := by simpa using ho
  interval_cases o
  · exact ⟨{ src := [97], pat := [98], matchdepth := 200, capture := [] },
      by simp [matchM, matchBody, matchDefault, classend, singlematch, match_class,
        class_res, tolowerB, prepstate, MAXCCALLS]⟩
  · exact ⟨{ src := [97], pat := [98], matchdepth := 200, capture := [] },
      by simp [matchM, matchBody, matchDefault, classend, singlematch, prepstate, MAXCCALLS]⟩

theorem start_offset_normalization_witness :
    posrelatI 0 5 = 1 ∧ posrelatI (-(2 : Int)) 5 = 4 ∧ posrelatI (-(9 : Int)) 5 = 1 ∧
    (5 + 1 < posrelatI 99 5) ∧
    cfun_str_match [104, 101, 108, 108, 111] [108] (some 99) 50 = .nil :=
  ⟨start_offset_normalization.1 5,
   start_offset_normalization.2.1 2 5 (by decide) (by decide),
   start_offset_normalization.2.2.1 9 5 (by decide),
   by decide,
   start_offset_normalization.2.2.2 [104, 101, 108, 108, 111] [108] 99 50 (by decide)⟩

end Janet
